import Mathlib

/-!
Verification of the Myagi/django-api extension library against its
natural-language specification.

The development shallowly embeds the Python source files
`serializers.py`, `filters.py` and `simple-api/renderers.py`:

* framework dictionaries (serializer field dictionaries, filter-set
  attribute dictionaries, model metadata) are modelled as association
  lists with insertion-order semantics and replace-on-reassignment;
* Python string `split` / `join` / `in` / `replace` are modelled by
  executable character-level functions with the same semantics;
* fallible code (`raise`) is modelled with `Except String`;
* in-place mutation of a caller-supplied dictionary (`build_obj`) is
  modelled with an explicit heap of dictionaries so that aliasing is
  visible.

Definitions are translated from the source; functions named after a
Python method keep the method's name.
-/

set_option autoImplicit false

namespace DjangoApi

/-! ## Generic helpers: Python string and dict primitives -/

/-- Python `str.split(sep)` for a single-character separator `sep`,
at the level of character lists: `"a,b"` ↦ `["a","b"]`, `""` ↦ `[""]`,
`"a,"` ↦ `["a",""]`. -/
def splitCharAux (sep : Char) : List Char → List (List Char)
  | [] => [[]]
  | c :: cs =>
    if c = sep then [] :: splitCharAux sep cs
    else
      match splitCharAux sep cs with
      | [] => [[c]]
      | g :: gs => (c :: g) :: gs

/-- Python `str.split(sep)` for a single-character separator, on strings. -/
def pySplit (sep : Char) (s : String) : List String :=
  (splitCharAux sep s.toList).map (fun l => String.mk l)

/-- Python `sep.join(parts)` for a single-character separator. -/
def pyJoin (sep : Char) : List String → String
  | [] => ""
  | [s] => s
  | s :: rest => s ++ String.mk [sep] ++ pyJoin sep rest

/-- Python `d[k]` on an association list: the value of the first entry
with key `k`. -/
def assocLookup {V : Type} (d : List (String × V)) (k : String) : Option V :=
  match d with
  | [] => none
  | p :: rest => if p.1 = k then some p.2 else assocLookup rest k

/-- Python `k in d` for a dict `d`. -/
def hasKey {V : Type} (d : List (String × V)) (k : String) : Bool :=
  (assocLookup d k).isSome

/-- Python dict assignment `d[k] = v` on an insertion-ordered
association list: replaces the value in place when the key is present,
appends otherwise. -/
def dictInsert {V : Type} (d : List (String × V)) (k : String) (v : V) : List (String × V) :=
  if hasKey d k then
    d.map (fun p => if p.1 = k then (p.1, v) else p)
  else d ++ [(k, v)]

/-- Python `d.get(k, default)` on an association list. -/
def dictGetD {V : Type} (d : List (String × V)) (k : String) (dflt : V) : V :=
  match assocLookup d k with
  | some v => v
  | none => dflt

/-! ## `serializers.py`: the field selection and expansion resolver

`ModelSerializer._process_fields_based_on_context` receives the default
field dictionary of the serializer and removes or annotates entries
according to the `fields` request query parameter or the
`requested_fields` context entry.  Module constants from the source:
`RELATED_FIELD_SEPARATOR = "."`, `ALL_FIELDS_SPECIFIER = "*"`,
`FIELDS_DIVIDER = ","`. -/

/-- A child relation object (`val.child_relation`).  `hasRequestedFields`
models `hasattr(child_relation, "requested_fields")`; `requestedFields`
is the attribute's value when present. -/
structure ChildRel where
  hasRequestedFields : Bool
  requestedFields : List String
  deriving DecidableEq

/-- A serializer field object as seen by
`_process_fields_based_on_context`: it may carry a `requested_fields`
attribute directly (expandable related field) or a `child_relation`
(list of related fields), whose child may carry the attribute. -/
structure SField where
  hasRequestedFields : Bool
  requestedFields : List String
  childRelation : Option ChildRel
  deriving DecidableEq

/-- The request object: only its `fields` query parameter is read
(`request_params.get("fields")`). -/
structure PyRequest where
  fieldsParam : Option String
  deriving DecidableEq

/-- The serializer context.  `requestedFieldsEntry = some v` models the
key `"requested_fields"` being present in `self.context` with value `v`
(where `none` stands for Python `None`); the outer `none` models the key
being absent, in which case `context.get` falls back to the fields
parsed from the request. -/
structure SerializerContext where
  request : Option PyRequest
  requestedFieldsEntry : Option (Option (List String))

/-- Lines 48-58 of `serializers.py`: resolve the `fields` value that
drives field selection.  `none` stands for a falsy value (`None` or the
empty string); the split of a non-empty parameter is never `[]`. -/
def resolveFields (ctx : SerializerContext) : Option (List String) :=
  let fieldsInRequest : Option (List String) :=
    match ctx.request with
    | none => none
    | some req =>
      match req.fieldsParam with
      | none => none
      | some s => if s = "" then none else some (pySplit ',' s)
  match ctx.requestedFieldsEntry with
  | some v => v
  | none => fieldsInRequest

/-- One iteration of the lines 75-84 loop: if the request entry `f` has
more than one dot-separated segment, record the joined tail under the
first segment in the expansion map `m`. -/
def expandStep (m : List (String × List String)) (f : String) : List (String × List String) :=
  let parts := pySplit '.' f
  if 1 < parts.length then
    let key := parts.headD ""
    let m := if hasKey m key then m else m ++ [(key, [])]
    m.map (fun p => if p.1 = key then (p.1, p.2 ++ [pyJoin '.' parts.tail]) else p)
  else m

/-- Lines 74-84: build `fields_to_expand_map`, mapping the first segment
of every dotted request entry to the list of its remaining sub-paths. -/
def buildExpandMap (fields : List String) : List (String × List String) :=
  fields.foldl expandStep []

/-- Lines 86-91: set the `requested_fields` attribute on a field value
when the field (or its `child_relation`) carries that attribute. -/
def setRequested (v : SField) (rf : List String) : SField :=
  if v.hasRequestedFields then { v with requestedFields := rf }
  else
    match v.childRelation with
    | some c =>
      if c.hasRequestedFields then
        { v with childRelation := some { c with requestedFields := rf } }
      else v
    | none => v

/-- `ModelSerializer._process_fields_based_on_context` (lines 38-92).
The field dictionary is an insertion-ordered association list; the
in-place `pop` loop becomes a filter over the keys, and the
`iteritems` mutation loop becomes a map. -/
def process_fields_based_on_context (ctx : SerializerContext)
    (all_fields : List (String × SField)) : List (String × SField) :=
  match resolveFields ctx with
  | none => all_fields
  | some fields =>
    if fields = [] then all_fields
    else
      let relevant_fields := fields.map (fun f => (pySplit '.' f).headD "")
      let all_fields₁ :=
        if "*" ∈ fields then all_fields
        else all_fields.filter (fun p => decide (p.1 ∈ relevant_fields))
      let expandMap := buildExpandMap fields
      all_fields₁.map (fun p => (p.1, setRequested p.2 (dictGetD expandMap p.1 [])))

/-- `ModelSerializer.get_fields` (lines 94-102): the default field
dictionary produced by the framework is a parameter. -/
def get_fields (ctx : SerializerContext) (defaultFields : List (String × SField)) :
    List (String × SField) :=
  process_fields_based_on_context ctx defaultFields

/-- The sub-paths requested for top-level name `k`: the dot-joined tails
of every entry of `fields` whose head segment is `k` and which has more
than one segment.  Used to state what `buildExpandMap` associates to a
key. -/
def subPathsFor (fields : List String) (k : String) : List String :=
  fields.filterMap
    (fun f =>
      let parts := pySplit '.' f
      if 1 < parts.length ∧ parts.headD "" = k then some (pyJoin '.' parts.tail) else none)

/-! ## `serializers.py`: `ModelSerializer.build_obj` (lines 104-150)

`build_obj` copies the data dictionary (`copy.copy`), pops the
to-many relation keys from the copy, and calls the model constructor.
To make the aliasing content of the claim visible, dictionaries live in
an explicit heap addressed by allocation index; `copy.copy(data)`
allocates a fresh cell, and `validated_data.pop(...)` writes only that
cell. -/

/-- A heap of Python dictionaries; the address of a dictionary is its
allocation index. -/
structure Heap (V : Type) where
  cells : List (List (String × V))

/-- Dereference an address (out-of-range reads give the empty dict). -/
def Heap.read {V : Type} (h : Heap V) (a : Nat) : List (String × V) :=
  h.cells.getD a []

/-- Allocate a fresh dictionary, returning its address. -/
def Heap.alloc {V : Type} (h : Heap V) (d : List (String × V)) : Heap V × Nat :=
  (⟨h.cells ++ [d]⟩, h.cells.length)

/-- Overwrite the dictionary at an address. -/
def Heap.write {V : Type} (h : Heap V) (a : Nat) (d : List (String × V)) : Heap V :=
  ⟨h.cells.set a d⟩

/-- The framework inputs of `build_obj`: the `to_many` flags of
`model_meta.get_field_info(ModelClass).relations`, whether
`raise_errors_on_nested_writes` raises, and whether
`ModelClass(**kwargs)` accepts the keyword dictionary (`false` models
the `TypeError` branch). -/
structure BuildEnv (V : Type) where
  relations : List (String × Bool)
  nestedWritesError : Bool
  ctorAccepts : List (String × V) → Bool

/-- The `TypeError` message of lines 134-148 (format arguments elided). -/
def buildObjTypeError : String :=
  "Got a TypeError when calling objects.create()."

/-- One iteration of the lines 127-129 loop: pop a to-many relation key
from the dictionary at `copyAddr`, accumulating `many_to_many`. -/
def popStep {V : Type} (copyAddr : Nat) (st : Heap V × List (String × V))
    (rel : String × Bool) : Heap V × List (String × V) :=
  let (h, m2m) := st
  let d := h.read copyAddr
  if rel.2 then
    match assocLookup d rel.1 with
    | some v => (h.write copyAddr (d.filter (fun q => !(q.1 == rel.1))), dictInsert m2m rel.1 v)
    | none => (h, m2m)
  else (h, m2m)

/-- `ModelSerializer.build_obj` (lines 104-150).  `dataArg = none`
models calling `build_obj()` so that `self.validated_data` (living at
`validatedDataAddr`) is used.  Returns the outcome — the constructed
instance is identified with its keyword dictionary — and the heap after
the call. -/
def build_obj {V : Type} (env : BuildEnv V) (h : Heap V) (validatedDataAddr : Nat)
    (dataArg : Option Nat) : Except String (List (String × V)) × Heap V :=
  let dataAddr := dataArg.getD validatedDataAddr
  let alloc := h.alloc (h.read dataAddr)
  let h₁ := alloc.1
  let copyAddr := alloc.2
  if env.nestedWritesError then (.error "nested writes are not supported", h₁)
  else
    let st := env.relations.foldl (popStep copyAddr) (h₁, [])
    let h₂ := st.1
    let finalDict := h₂.read copyAddr
    if env.ctorAccepts finalDict then (.ok finalDict, h₂)
    else (.error buildObjTypeError, h₂)

/-! ## `serializers.py`: `PolymorphicModelSerializer.to_representation`
(lines 171-186)

The subtype serializers are a list; the code keys them by their
`Meta.model` in a dict (modelled insertion-ordered, later entries for
the same model overwriting earlier ones) and returns the representation
of the first entry whose model matches `isinstance`. -/

/-- A subtype serializer: its `Meta.model` and the representation it
produces for an object (`serializer(obj, context=...).to_representation(obj)`). -/
structure SubtypeSerializer (Obj R Mdl : Type) where
  metaModel : Mdl
  represent : Obj → R

/-- Generic dict assignment keyed by an arbitrary decidable type (the
keys here are model classes, not strings). -/
def dictInsertG {K V : Type} [DecidableEq K] (d : List (K × V)) (k : K) (v : V) :
    List (K × V) :=
  if (d.find? (fun p => decide (p.1 = k))).isSome then
    d.map (fun p => if p.1 = k then (p.1, v) else p)
  else d ++ [(k, v)]

/-- Lines 177-179: key the subtype serializers by their `Meta.model`. -/
def buildSubtypeMap {Obj R Mdl : Type} [DecidableEq Mdl]
    (subs : List (SubtypeSerializer Obj R Mdl)) :
    List (Mdl × SubtypeSerializer Obj R Mdl) :=
  subs.foldl (fun m s => dictInsertG m s.metaModel s) []

/-- `PolymorphicModelSerializer.to_representation` (lines 171-186):
`isInst obj m` models `isinstance(obj, m)`; `base` is the
`ModelSerializer` representation used when no subtype model matches. -/
def polymorphic_to_representation {Obj R Mdl : Type} [DecidableEq Mdl]
    (isInst : Obj → Mdl → Bool) (base : Obj → R)
    (subs : List (SubtypeSerializer Obj R Mdl)) (obj : Obj) : R :=
  match (buildSubtypeMap subs).find? (fun p => isInst obj p.1) with
  | some p => p.2.represent obj
  | none => base obj

/-- The selection rule asserted by the claim: the first serializer in
the `subtype_serializers` list whose declared model matches the object
is used, the base representation otherwise. -/
def claimedSelect {Obj R Mdl : Type} (isInst : Obj → Mdl → Bool) (base : Obj → R)
    (subs : List (SubtypeSerializer Obj R Mdl)) (obj : Obj) : R :=
  match subs.find? (fun s => isInst obj s.metaModel) with
  | some s => s.represent obj
  | none => base obj

/-- Python `dict` keeps, for every key, the value of its last
assignment: the last serializer in the list declaring a given model. -/
def lastWithModel {Obj R Mdl : Type} [DecidableEq Mdl]
    (subs : List (SubtypeSerializer Obj R Mdl)) (m : Mdl) :
    Option (SubtypeSerializer Obj R Mdl) :=
  match subs with
  | [] => none
  | s :: rest =>
    match lastWithModel rest m with
    | some v => some v
    | none => if s.metaModel = m then some s else none

/-- The amended selection rule: the declared model is the one of the
first matching serializer in the list, but the serializer used is the
last one in the list declaring that model. -/
def amendedSelect {Obj R Mdl : Type} [DecidableEq Mdl]
    (isInst : Obj → Mdl → Bool) (base : Obj → R)
    (subs : List (SubtypeSerializer Obj R Mdl)) (obj : Obj) : R :=
  match subs.find? (fun s => isInst obj s.metaModel) with
  | some s =>
    match lastWithModel subs s.metaModel with
    | some s' => s'.represent obj
    | none => base obj
  | none => base obj

/-! ## Supporting lemmas for the field-selection resolver -/

theorem assocLookup_map_update (m : List (String × List String)) (key k : String) (j : String) :
    assocLookup (m.map (fun p => if p.1 = key then (p.1, p.2 ++ [j]) else p)) k =
      if k = key then (assocLookup m key).map (fun v => v ++ [j]) else assocLookup m k := by
  induction m with
  | nil => by_cases hk : k = key <;> simp [assocLookup, hk]
  | cons p rest ih =>
    by_cases hk : k = key <;> by_cases hp : p.1 = key <;> by_cases hpk : p.1 = k <;>
      simp_all [assocLookup]

theorem assocLookup_append {V : Type} (m m' : List (String × V)) (k : String) :
    assocLookup (m ++ m') k =
      match assocLookup m k with
      | some v => some v
      | none => assocLookup m' k := by
  induction m with
  | nil => simp [assocLookup]
  | cons p rest ih => by_cases hp : p.1 = k <;> simp [assocLookup, hp, ih]

theorem dictGetD_update (m : List (String × List String)) (k key : String) (j : String) :
    dictGetD ((if hasKey m key then m else m ++ [(key, [])]).map
        (fun p => if p.1 = key then (p.1, p.2 ++ [j]) else p)) k [] =
      if k = key then dictGetD m k [] ++ [j] else dictGetD m k [] := by
  by_cases hm : hasKey m key
  · rcases hs : assocLookup m key with _ | v
    · simp [hasKey, hs] at hm
    · by_cases hk : k = key <;>
        simp [dictGetD, hm, assocLookup_map_update, hk, hs]
  · have hnone : assocLookup m key = none := by
      rcases hs : assocLookup m key with _ | v
      · rfl
      · simp [hasKey, hs] at hm
    by_cases hk : k = key
    · simp [dictGetD, hm, List.map_append, assocLookup_append,
        assocLookup_map_update, hk, hnone, assocLookup]
    · have hk' : key ≠ k := fun h => hk h.symm
      simp [dictGetD, hm, List.map_append, assocLookup_append,
        assocLookup_map_update, hk, hk', hnone, assocLookup]
      rcases assocLookup m k with _ | w <;> simp

theorem subPathsFor_cons (f : String) (rest : List String) (k : String) :
    subPathsFor (f :: rest) k =
      (if 1 < (pySplit '.' f).length ∧ (pySplit '.' f).headD "" = k then
        [pyJoin '.' (pySplit '.' f).tail]
      else []) ++ subPathsFor rest k := by
  simp only [subPathsFor, List.filterMap_cons]
  by_cases h : 1 < (pySplit '.' f).length ∧ (pySplit '.' f).headD "" = k
  · rw [if_pos h, if_pos h]
    rfl
  · rw [if_neg h, if_neg h]
    rfl

theorem dictGetD_expandStep (acc : List (String × List String)) (f k : String) :
    dictGetD (expandStep acc f) k [] =
      dictGetD acc k [] ++
        (if 1 < (pySplit '.' f).length ∧ (pySplit '.' f).headD "" = k then
          [pyJoin '.' (pySplit '.' f).tail]
        else []) := by
  by_cases hlen : 1 < (pySplit '.' f).length
  · by_cases hk : (pySplit '.' f).headD "" = k
    · rw [if_pos ⟨hlen, hk⟩]
      simp only [expandStep]
      rw [if_pos hlen, dictGetD_update, if_pos hk.symm]
    · rw [if_neg (fun h => hk h.2)]
      have hk' : ¬(k = (pySplit '.' f).headD "") := fun h => hk h.symm
      simp only [expandStep]
      rw [if_pos hlen, dictGetD_update, if_neg hk']
      simp
  · rw [if_neg (fun h => hlen h.1)]
    simp only [expandStep]
    rw [if_neg hlen]
    simp

theorem dictGetD_buildExpandMap_aux (k : String) :
    ∀ (l : List String) (acc : List (String × List String)),
      dictGetD (l.foldl expandStep acc) k [] = dictGetD acc k [] ++ subPathsFor l k := by
  intro l
  induction l with
  | nil => intro acc; simp [subPathsFor]
  | cons f rest ih =>
    intro acc
    rw [List.foldl_cons, ih (expandStep acc f), dictGetD_expandStep, subPathsFor_cons,
      List.append_assoc]

theorem dictGetD_buildExpandMap (fields : List String) (k : String) :
    dictGetD (buildExpandMap fields) k [] = subPathsFor fields k := by
  have := dictGetD_buildExpandMap_aux k fields []
  simpa [buildExpandMap, dictGetD, assocLookup] using this

/-! ## Claims C1, C2, C10: field selection and expansion -/

/-- C1: with the request parameter `fields=a,b.c` (and no
`requested_fields` context entry), `get_fields` keeps exactly the
default fields named `a` and `b`, and the sub-path `c` is propagated as
the requested nested field list of `b` (set on the field itself or on
its `child_relation`, via `setRequested`), while `a` receives the empty
list. -/
theorem fields_request_restricts_and_propagates
    (all_fields : List (String × SField)) :
    get_fields ⟨some ⟨some "a,b.c"⟩, none⟩ all_fields =
      (all_fields.filter (fun p => decide (p.1 = "a" ∨ p.1 = "b"))).map
        (fun p => (p.1, setRequested p.2 (if p.1 = "b" then ["c"] else []))) := by
  have hres : resolveFields ⟨some ⟨some "a,b.c"⟩, none⟩ = some ["a", "b.c"] := rfl
  have hrel : (["a", "b.c"] : List String).map (fun f => (pySplit '.' f).headD "") =
      ["a", "b"] := by decide
  simp only [get_fields, process_fields_based_on_context, hres, hrel]
  rw [if_neg (by decide), if_neg (by decide)]
  rw [List.filter_congr (q := fun p => decide (p.1 = "a" ∨ p.1 = "b")) ?hp]
  case hp =>
    intro p _
    by_cases h1 : p.1 = "a" <;> by_cases h2 : p.1 = "b" <;> simp [h1, h2]
  refine List.map_congr_left ?_
  intro p _
  have : dictGetD (buildExpandMap ["a", "b.c"]) p.1 [] =
      if p.1 = "b" then ["c"] else [] := by
    have hmap : buildExpandMap ["a", "b.c"] = [("b", ["c"])] := by decide
    rw [hmap]
    by_cases h : p.1 = "b"
    · simp [dictGetD, assocLookup, h]
    · have h' : ¬("b" = p.1) := fun hh => h hh.symm
      simp [dictGetD, assocLookup, h', h]
  rw [this]

/-- C2: when the wildcard `*` is among the resolved requested field
names, the selection step removes no field: `get_fields` returns a
dictionary with exactly the keys of the default field dictionary. -/
theorem wildcard_keeps_all_fields
    (ctx : SerializerContext) (defaultFields : List (String × SField))
    (fields : List String) (hres : resolveFields ctx = some fields)
    (hstar : "*" ∈ fields) :
    (get_fields ctx defaultFields).map Prod.fst = defaultFields.map Prod.fst := by
  have hne : ¬(fields = []) := List.ne_nil_of_mem hstar
  simp [get_fields, process_fields_based_on_context, hres, hne, hstar, List.map_map]

/-- C2 witness: a concrete wildcard request keeps both default fields. -/
theorem wildcard_keeps_all_fields_witness :
    resolveFields ⟨none, some (some ["*", "x"])⟩ = some ["*", "x"] ∧
    "*" ∈ (["*", "x"] : List String) ∧
    (get_fields ⟨none, some (some ["*", "x"])⟩
        [("a", ⟨true, [], none⟩), ("b", ⟨false, [], none⟩)]).map Prod.fst =
      ([("a", (⟨true, [], none⟩ : SField)), ("b", ⟨false, [], none⟩)]).map Prod.fst :=
  ⟨rfl, by decide, wildcard_keeps_all_fields _ _ ["*", "x"] rfl (by decide)⟩

/-- C10: even when the wildcard is present, sub-path propagation still
runs over the (unrestricted) field dictionary: every field value is
rewritten by `setRequested` — which overwrites `requested_fields` on the
field or on its `child_relation` exactly when the attribute is present —
with the list of sub-paths requested under that field's name, the empty
list when none were requested. -/
theorem wildcard_still_propagates
    (ctx : SerializerContext) (defaultFields : List (String × SField))
    (fields : List String) (hres : resolveFields ctx = some fields)
    (hstar : "*" ∈ fields) :
    get_fields ctx defaultFields =
      defaultFields.map (fun p => (p.1, setRequested p.2 (subPathsFor fields p.1))) := by
  have hne : ¬(fields = []) := List.ne_nil_of_mem hstar
  simp only [get_fields, process_fields_based_on_context, hres, if_neg hne, if_pos hstar]
  refine List.map_congr_left ?_
  intro p _
  rw [dictGetD_buildExpandMap]

/-- C10 witness: under `fields=*,b.c` the field `b` (expandable) gets
`["c"]` while its entry survives together with the non-requested `d`. -/
theorem wildcard_still_propagates_witness :
    resolveFields ⟨some ⟨some "*,b.c"⟩, none⟩ = some ["*", "b.c"] ∧
    "*" ∈ (["*", "b.c"] : List String) ∧
    get_fields ⟨some ⟨some "*,b.c"⟩, none⟩
        [("b", ⟨true, ["old"], none⟩), ("d", ⟨false, [], none⟩)] =
      ([("b", (⟨true, ["old"], none⟩ : SField)), ("d", ⟨false, [], none⟩)]).map
        (fun p => (p.1, setRequested p.2 (subPathsFor ["*", "b.c"] p.1))) :=
  ⟨rfl, by decide, wildcard_still_propagates _ _ ["*", "b.c"] rfl (by decide)⟩

/-! ## Claim C9: `build_obj` leaves the caller dictionary unchanged -/

theorem Heap.read_write_ne {V : Type} (h : Heap V) (a b : Nat) (d : List (String × V))
    (hab : b ≠ a) : (h.write a d).read b = h.read b := by
  simp only [Heap.write, Heap.read, List.getD, List.get?_eq_getElem?]
  rw [List.getElem?_set_ne (fun hh => hab hh.symm)]

theorem Heap.read_alloc_self {V : Type} (h : Heap V) (a : Nat) :
    ((h.alloc (h.read a)).1).read a = h.read a := by
  simp only [Heap.alloc, Heap.read, List.getD]
  rcases lt_trichotomy a h.cells.length with hlt | heq | hgt
  · rw [List.get?_append hlt]
  · subst heq
    rw [List.get?_concat_length]
    rfl
  · rw [List.get?_eq_none.2 (by simp; omega), List.get?_eq_none.2 (by omega)]

theorem foldl_popStep_read_ne {V : Type} (copyAddr : Nat) (b : Nat) (hb : b ≠ copyAddr) :
    ∀ (rels : List (String × Bool)) (st : Heap V × List (String × V)),
      ((rels.foldl (popStep copyAddr) st).1).read b = st.1.read b := by
  intro rels
  induction rels with
  | nil => intro st; rfl
  | cons rel rest ih =>
    intro st
    rw [List.foldl_cons, ih]
    simp only [popStep]
    rcases st with ⟨hh, m2m⟩
    by_cases h2 : rel.2
    · simp only [h2, if_true]
      rcases assocLookup (hh.read copyAddr) rel.1 with _ | v
      · rfl
      · exact Heap.read_write_ne hh copyAddr b _ hb
    · simp [h2]

theorem foldl_popStep_read_nil {V : Type} (copyAddr : Nat) :
    ∀ (rels : List (String × Bool)) (st : Heap V × List (String × V)),
      st.1.read copyAddr = [] →
      ((rels.foldl (popStep copyAddr) st).1).read copyAddr = [] := by
  intro rels
  induction rels with
  | nil => intro st hst; exact hst
  | cons rel rest ih =>
    intro st hst
    rw [List.foldl_cons]
    refine ih _ ?_
    simp only [popStep]
    rcases st with ⟨hh, m2m⟩
    simp only at hst
    by_cases h2 : rel.2
    · simp only [h2, if_true]
      rw [hst]
      simp only [assocLookup]
      exact hst
    · simpa [h2] using hst

/-- C9: `build_obj` never changes the dictionary it was given — the
explicit `data` argument, or `self.validated_data` when `data` is
`None` — because the to-many keys are popped only from the copy
allocated before construction; this holds on every outcome, including
the nested-writes error and the `TypeError` branch. -/
theorem build_obj_frame {V : Type} (env : BuildEnv V) (h : Heap V)
    (validatedDataAddr : Nat) (dataArg : Option Nat) :
    ((build_obj env h validatedDataAddr dataArg).2).read (dataArg.getD validatedDataAddr) =
      h.read (dataArg.getD validatedDataAddr) := by
  simp only [build_obj, Heap.alloc]
  set a := dataArg.getD validatedDataAddr with ha
  have halloc : (Heap.mk (h.cells ++ [h.read a]) : Heap V).read a = h.read a := by
    simpa [Heap.alloc] using Heap.read_alloc_self h a
  by_cases hnw : env.nestedWritesError
  · simp only [hnw, if_true]
    exact halloc
  · simp only [hnw, if_false, Bool.false_eq_true]
    set F := env.relations.foldl (popStep h.cells.length)
      ((Heap.mk (h.cells ++ [h.read a]) : Heap V), ([] : List (String × V))) with hF
    have hgoal : F.1.read a = h.read a := by
      by_cases hac : a = h.cells.length
      · have h0 : h.read a = [] := by
          simp only [Heap.read]
          exact List.getD_eq_default _ _ (le_of_eq hac.symm)
        have hcopy : ((Heap.mk (h.cells ++ [h.read a]) : Heap V),
            ([] : List (String × V))).1.read h.cells.length = [] := by
          rw [← hac]
          rw [halloc, h0]
        have hfin := foldl_popStep_read_nil (V := V) h.cells.length env.relations
          ((Heap.mk (h.cells ++ [h.read a]) : Heap V), []) hcopy
        rw [← hF] at hfin
        rw [hac, hfin, ← hac, h0]
      · have hfin := foldl_popStep_read_ne (V := V) h.cells.length a hac env.relations
          ((Heap.mk (h.cells ++ [h.read a]) : Heap V), [])
        rw [← hF] at hfin
        rw [hfin]
        exact halloc
    by_cases hctor : env.ctorAccepts (F.1.read h.cells.length) <;>
      simp only [hctor, if_true, if_false, Bool.false_eq_true] <;>
      exact hgoal

/-! ## Claim C7: polymorphic dispatch -/

section PolymorphicLemmas

variable {Obj R Mdl : Type} [DecidableEq Mdl]

theorem find?_map_replace (d : List (Mdl × SubtypeSerializer Obj R Mdl)) (k : Mdl)
    (v : SubtypeSerializer Obj R Mdl) (q : Mdl → Bool) :
    (d.map (fun p => if p.1 = k then (p.1, v) else p)).find? (fun p => q p.1) =
      (d.find? (fun p => q p.1)).map (fun pr => if pr.1 = k then (pr.1, v) else pr) := by
  induction d with
  | nil => rfl
  | cons p rest ih =>
    simp only [List.map_cons]
    by_cases hpk : p.1 = k
    · subst hpk
      rcases hq : q p.1 with _ | _ <;>
        simp [List.find?_cons, hq, ih]
    · rcases hq : q p.1 with _ | _ <;>
        simp [List.find?_cons, hq, hpk, ih]

theorem lastWithModel_cons_ne (s : SubtypeSerializer Obj R Mdl)
    (rest : List (SubtypeSerializer Obj R Mdl)) (k : Mdl) (h : ¬(s.metaModel = k)) :
    lastWithModel (s :: rest) k = lastWithModel rest k := by
  simp only [lastWithModel]
  rcases lastWithModel rest k with _ | v
  · simp [h]
  · rfl

theorem lastWithModel_isSome {subs : List (SubtypeSerializer Obj R Mdl)}
    {s : SubtypeSerializer Obj R Mdl} (hs : s ∈ subs) :
    (lastWithModel subs s.metaModel).isSome = true := by
  induction subs with
  | nil => simp at hs
  | cons t rest ih =>
    rcases List.mem_cons.1 hs with rfl | hmem
    · simp only [lastWithModel]
      rcases lastWithModel rest s.metaModel with _ | v <;> simp
    · simp only [lastWithModel]
      have h2 := ih hmem
      rcases h' : lastWithModel rest s.metaModel with _ | v
      · rw [h'] at h2
        simp at h2
      · simp

theorem buildSubtypeMap_find?_aux (q : Mdl → Bool) :
    ∀ (l : List (SubtypeSerializer Obj R Mdl))
      (m : List (Mdl × SubtypeSerializer Obj R Mdl)),
      (l.foldl (fun m s => dictInsertG m s.metaModel s) m).find? (fun p => q p.1) =
        match m.find? (fun p => q p.1) with
        | some pr => some (pr.1, (lastWithModel l pr.1).getD pr.2)
        | none =>
          (l.find? (fun s => q s.metaModel)).map
            (fun s => (s.metaModel, (lastWithModel l s.metaModel).getD s)) := by
  intro l
  induction l with
  | nil =>
    intro m
    rw [List.foldl_nil]
    rcases hm : m.find? (fun p => q p.1) with _ | pr <;> rw [hm] <;> simp [lastWithModel]
  | cons s rest ih =>
    intro m
    rw [List.foldl_cons, ih (dictInsertG m s.metaModel s)]
    by_cases hin : ((m.find? (fun p => decide (p.1 = s.metaModel))).isSome : Bool)
    · -- key already present: the entry is replaced in place
      have hkey : ∃ pr ∈ m, pr.1 = s.metaModel := by
        rcases hf : m.find? (fun p => decide (p.1 = s.metaModel)) with _ | pr
        · rw [hf] at hin; simp at hin
        · exact ⟨pr, List.mem_of_find?_eq_some hf, by simpa using List.find?_some hf⟩
      have hrepl : (dictInsertG m s.metaModel s).find? (fun p => q p.1) =
          (m.find? (fun p => q p.1)).map
            (fun pr => if pr.1 = s.metaModel then (pr.1, s) else pr) := by
        rw [dictInsertG, if_pos hin, find?_map_replace]
      rcases hm : m.find? (fun p => q p.1) with _ | pr
      · rw [hm] at hrepl
        rw [hm]
        simp only [hrepl, Option.map_none']
        -- no key of m matches q, hence q s.metaModel is false
        have hqk : q s.metaModel = false := by
          rcases hkey with ⟨pr, hpr, hprk⟩
          have := List.find?_eq_none.1 hm pr hpr
          simpa [hprk] using this
        rw [List.find?_cons, hqk]
        rcases hr : rest.find? (fun s => q s.metaModel) with _ | t
        · rw [hr]
          rfl
        · rw [hr]
          have htq := List.find?_some hr
          have htk : ¬(s.metaModel = t.metaModel) := by
            intro hh
            rw [← hh, hqk] at htq
            exact absurd htq (by simp)
          simp only [Option.map_some']
          rw [lastWithModel_cons_ne s rest t.metaModel htk]
      · rw [hm] at hrepl
        rw [hm]
        simp only [hrepl, Option.map_some']
        by_cases hprk : pr.1 = s.metaModel
        · rw [if_pos hprk]
          simp only [lastWithModel, hprk]
          rcases lastWithModel rest s.metaModel with _ | v <;> simp
        · rw [if_neg hprk]
          rw [lastWithModel_cons_ne s rest pr.1 (fun h => hprk h.symm)]
    · -- key not present: the entry is appended
      have happ : (dictInsertG m s.metaModel s).find? (fun p => q p.1) =
          match m.find? (fun p => q p.1) with
          | some pr => some pr
          | none => if q s.metaModel then some (s.metaModel, s) else none := by
        rw [dictInsertG, if_neg hin, List.find?_append]
        rcases hm : m.find? (fun p => q p.1) with _ | pr
        · rw [hm]
          simp [List.find?_cons]
          rcases hq : q s.metaModel with _ | _ <;> simp [hq]
        · rw [hm]
          simp
      rcases hm : m.find? (fun p => q p.1) with _ | pr
      · rw [hm] at happ
        rw [hm]
        simp only at happ
        rw [happ, List.find?_cons]
        by_cases hqk : q s.metaModel
        · simp only [hqk, if_pos, Option.map_some']
          simp only [lastWithModel]
          rcases lastWithModel rest s.metaModel with _ | v <;> simp [hqk]
        · simp only [hqk, Bool.false_eq_true, if_false]
          rcases hr : rest.find? (fun s => q s.metaModel) with _ | t
          · rw [hr]
            rfl
          · rw [hr]
            have htq := List.find?_some hr
            have htk : ¬(s.metaModel = t.metaModel) := by
              intro hh
              rw [← hh] at htq
              exact absurd htq hqk
            simp only [Option.map_some']
            rw [lastWithModel_cons_ne s rest t.metaModel htk]
      · rw [hm] at happ
        rw [hm]
        simp only at happ
        rw [happ]
        have hnokey : ∀ pr ∈ m, ¬(pr.1 = s.metaModel) := by
          intro pr' hpr'
          intro heq
          rcases hf : m.find? (fun p => decide (p.1 = s.metaModel)) with _ | pr''
          · have := List.find?_eq_none.1 hf pr' hpr'
            simp [heq] at this
          · rw [hf] at hin
            simp at hin
        have hprm : pr ∈ m := List.mem_of_find?_eq_some hm
        have hprk : ¬(pr.1 = s.metaModel) := hnokey pr hprm
        dsimp only
        rw [lastWithModel_cons_ne s rest pr.1 (fun h => hprk h.symm)]

end PolymorphicLemmas


/-- C7 (amended): `to_representation` dispatches on the dict built from
`Meta.subtype_serializers`: the declared model used is that of the first
serializer in the list matching `isinstance`, but the serializer invoked
is the last list entry declaring that model (later entries overwrite
earlier ones in the dict); when no subtype model matches, the base
representation is returned. -/
theorem polymorphic_dispatch_amended {Obj R Mdl : Type} [DecidableEq Mdl]
    (isInst : Obj → Mdl → Bool) (base : Obj → R)
    (subs : List (SubtypeSerializer Obj R Mdl)) (obj : Obj) :
    polymorphic_to_representation isInst base subs obj =
      amendedSelect isInst base subs obj := by
  simp only [polymorphic_to_representation, buildSubtypeMap, amendedSelect]
  rw [buildSubtypeMap_find?_aux (isInst obj) subs []]
  simp only [List.find?_nil]
  rcases hf : subs.find? (fun s => isInst obj s.metaModel) with _ | s
  · rw [hf]
    rfl
  · rw [hf]
    simp only [Option.map_some']
    have hsome := lastWithModel_isSome (List.mem_of_find?_eq_some hf)
    rcases hl : lastWithModel subs s.metaModel with _ | t
    · rw [hl] at hsome
      simp at hsome
    · rfl

/-- C7 counterexample: with two subtype serializers declaring the same
model, the code delegates to the second (the dict keeps the last
assignment), while the claimed rule selects the first. -/
theorem polymorphic_dispatch_counterexample :
    polymorphic_to_representation (fun (_ : Unit) (_ : Nat) => true) (fun _ => (0 : Nat))
        [⟨0, fun _ => 1⟩, ⟨0, fun _ => 2⟩] () = 2 ∧
      claimedSelect (fun (_ : Unit) (_ : Nat) => true) (fun _ => (0 : Nat))
        [⟨0, fun _ => 1⟩, ⟨0, fun _ => 2⟩] () = 1 ∧
      (2 : Nat) ≠ 1 :=
  ⟨rfl, rfl, by decide⟩

end DjangoApi

namespace DjangoApi

def hasSepAux : List Char → Bool
  | '_' :: '_' :: _ => true
  | _ :: cs => hasSepAux cs
  | [] => false

def hasSep (s : String) : Bool := hasSepAux s.toList

def splitSepAux : List Char → List (List Char)
  | '_' :: '_' :: cs => [] :: splitSepAux cs
  | c :: cs =>
    match splitSepAux cs with
    | [] => [[c]]
    | g :: gs => (c :: g) :: gs
  | [] => [[]]

def splitSep (s : String) : List String :=
  (splitSepAux s.toList).map (fun l => String.mk l)

def joinSep : List String → String
  | [] => ""
  | [s] => s
  | s :: rest => s ++ "__" ++ joinSep rest

def joinSepCharAux : List (List Char) → List Char
  | [] => []
  | [g] => g
  | g :: gs => g ++ '_' :: '_' :: joinSepCharAux gs

theorem splitSepAux_ne_nil : ∀ l, splitSepAux l ≠ [] := by
  intro l
  induction l using splitSepAux.induct with
  | case1 cs ih => simp [splitSepAux]
  | case2 head cs hexc hsplit ih => exact absurd hsplit ih
  | case3 head cs hexc g gs hsplit ih =>
    rw [splitSepAux.eq_2 head cs hexc, hsplit]
    simp
  | case4 => simp [splitSepAux]

theorem joinSepCharAux_cons₂ (a b : List Char) (t : List (List Char)) :
    joinSepCharAux (a :: b :: t) = a ++ '_' :: '_' :: joinSepCharAux (b :: t) := rfl

theorem splitSepAux_join : ∀ l, joinSepCharAux (splitSepAux l) = l := by
  intro l
  induction l using splitSepAux.induct with
  | case1 cs ih =>
    show joinSepCharAux ([] :: splitSepAux cs) = '_' :: '_' :: cs
    rcases hs : splitSepAux cs with _ | ⟨g, gs⟩
    · exact absurd hs (splitSepAux_ne_nil cs)
    · rw [hs] at ih
      rw [joinSepCharAux_cons₂, ih]
      rfl
  | case2 head cs hexc hsplit ih => exact absurd hsplit (splitSepAux_ne_nil cs)
  | case3 head cs hexc g gs hsplit ih =>
    rw [splitSepAux.eq_2 head cs hexc, hsplit]
    rw [hsplit] at ih
    rcases gs with _ | ⟨b, t⟩
    · show head :: g = head :: cs
      rw [show joinSepCharAux [g] = g from rfl] at ih
      rw [ih]
    · rw [joinSepCharAux_cons₂] at ih
      rw [joinSepCharAux_cons₂, List.cons_append, ih]
  | case4 => rfl

theorem length_joinSep_map_mk : ∀ (gs : List (List Char)),
    (joinSep (gs.map (fun l => String.mk l))).length = (joinSepCharAux gs).length := by
  intro gs
  induction gs with
  | nil => rfl
  | cons a t ih =>
    rcases t with _ | ⟨b, t'⟩
    · rfl
    · show (String.mk a ++ "__" ++ joinSep ((b :: t').map (fun l => String.mk l))).length =
        (a ++ '_' :: '_' :: joinSepCharAux (b :: t')).length
      simp only [String.length_append, List.length_append, List.length_cons]
      rw [ih]
      simp [String.length]
      omega

theorem rest_length_le (f : String) (h : (splitSep f).tail ≠ []) :
    (joinSep (splitSep f).tail).length + 2 ≤ f.length := by
  rcases hs : splitSepAux f.toList with _ | ⟨g, gs⟩
  · exact absurd hs (splitSepAux_ne_nil _)
  · have htail : (splitSep f).tail = gs.map (fun l => String.mk l) := by
      rw [splitSep, hs]
      rfl
    rcases gs with _ | ⟨b, t⟩
    · rw [htail] at h
      simp at h
    · have hlen : f.length = f.toList.length := rfl
      have hjoin := splitSepAux_join f.toList
      rw [hs, joinSepCharAux_cons₂] at hjoin
      rw [htail, length_joinSep_map_mk, hlen, ← hjoin]
      simp only [List.length_append, List.length_cons]
      omega


/-- A Django model as seen through `rest_framework.utils.model_meta`:
its name, the names in `fields_and_pk`, and `relations` mapping relation
names to their `related_model`. -/
inductive PyModel where
  | mk (name : String) (fieldsAndPk : List String) (relations : List (String × PyModel))

def PyModel.name : PyModel → String
  | .mk n _ _ => n

def PyModel.fieldsAndPk : PyModel → List String
  | .mk _ fs _ => fs

def PyModel.relations : PyModel → List (String × PyModel)
  | .mk _ _ r => r

/-- `_get_related_model` (filters.py lines 57-62): `info.relations[f].related_model`,
with `None` on a missing key. -/
def getRelatedModel (M : PyModel) (f : String) : Option PyModel :=
  assocLookup M.relations f

/-- `_get_model_field` (filters.py lines 65-67): truthy iff the name is a
concrete field or the pk, or a relation. -/
def hasModelField (M : PyModel) (f : String) : Bool :=
  decide (f ∈ M.fieldsAndPk) || (getRelatedModel M f).isSome

/-- `related_fields[fname] = []` when `fname` is not yet a key
(filters.py lines 93-94). -/
def collectInsert (rf : List (String × List String)) (fname : String) :
    List (String × List String) :=
  if hasKey rf fname then rf else rf ++ [(fname, [])]

/-- `related_fields[fname].append(rest)` when `rest` is non-empty
(filters.py lines 100-102). -/
def collectAppendRest (rf : List (String × List String)) (fname rest : String) :
    List (String × List String) :=
  if rest = "" then rf
  else rf.map (fun p => if p.1 = fname then (p.1, p.2 ++ [rest]) else p)

/-- The first segment of a field path: `f.split("__")[0]`. -/
def firstSeg (f : String) : String := (splitSep f).headD ""

/-- The joined remainder of a field path:
`RELATED_FIELD_SEP.join(f.split("__")[1:])`. -/
def restOf (f : String) : String := joinSep (splitSep f).tail

/-- One iteration of the filters.py lines 89-102 loop collecting related
fields: for a path with the separator (or a plain relation name), ensure
the first segment is a key of `related_fields` and a member of `args`,
and append the joined tail when it is non-empty. -/
def collectStep (M : PyModel) (st : List String × List (String × List String)) (f : String) :
    List String × List (String × List String) :=
  if hasSep f || (getRelatedModel M f).isSome then
    let fname := firstSeg f
    let rest := restOf f
    ((if fname ∈ st.1 then st.1 else st.1 ++ [fname]),
      collectAppendRest (collectInsert st.2 fname) fname rest)
  else st

/-- Lines 87-102 of filters.py.  The Python loop iterates over `args`
while appending first-segment names to it; an appended name, when later
reached, has no separator, is already in `args` and already a key of
`related_fields` with an empty joined tail, so iterating it changes
nothing.  Folding the collection step over the original list with the
full list as the initial `args` is therefore equivalent. -/
def collectRelated (M : PyModel) (args : List String) :
    List String × List (String × List String) :=
  args.foldl (collectStep M) (args, [])

/-- The termination measure for `create_filter_class`: total length of
the argument paths, each weighted by one extra unit. -/
def μs (l : List String) : Nat := (l.map (fun s => s.length + 1)).sum

def nuOf (l : List String) : Nat := (l.map (fun s => s.length + 2)).sum

def nuAll (rf : List (String × List String)) : Nat := (rf.map (fun p => nuOf p.2)).sum

theorem assocLookup_none_iff {V : Type} (d : List (String × V)) (k : String) :
    assocLookup d k = none ↔ k ∉ d.map Prod.fst := by
  induction d with
  | nil => simp [assocLookup]
  | cons p rest ih =>
    by_cases hp : p.1 = k
    · simp [assocLookup, hp]
    · have hp' : ¬(k = p.1) := fun h => hp h.symm
      simp [assocLookup, hp, hp', ih]

theorem map_update_id_of_not_key (t : List (String × List String)) (fname rest : String)
    (h : fname ∉ t.map Prod.fst) :
    t.map (fun p => if p.1 = fname then (p.1, p.2 ++ [rest]) else p) = t := by
  induction t with
  | nil => rfl
  | cons q t' ih =>
    simp only [List.map_cons, List.mem_cons] at h
    push_neg at h
    have hq : ¬(q.1 = fname) := fun hh => h.1 hh.symm
    simp [hq, ih h.2]

theorem keys_map_update (rf : List (String × List String)) (fname rest : String) :
    (rf.map (fun p => if p.1 = fname then (p.1, p.2 ++ [rest]) else p)).map Prod.fst =
      rf.map Prod.fst := by
  induction rf with
  | nil => rfl
  | cons p t ih =>
    by_cases hp : p.1 = fname <;> simp [hp, ih]

theorem keys_collectAppendRest (rf : List (String × List String)) (fname rest : String) :
    (collectAppendRest rf fname rest).map Prod.fst = rf.map Prod.fst := by
  by_cases hr : rest = ""
  · simp [collectAppendRest, hr]
  · rw [collectAppendRest, if_neg hr, keys_map_update]

theorem keys_collectInsert_nodup (rf : List (String × List String)) (fname : String)
    (hnd : (rf.map Prod.fst).Nodup) :
    ((collectInsert rf fname).map Prod.fst).Nodup := by
  by_cases hk : hasKey rf fname
  · simpa [collectInsert, hk] using hnd
  · have hnotin : fname ∉ rf.map Prod.fst := by
      refine (assocLookup_none_iff rf fname).1 ?_
      rcases hs : assocLookup rf fname with _ | v
      · rfl
      · exact absurd (by simp [hasKey, hs]) hk
    simp [collectInsert, hk, List.nodup_append, hnd, hnotin]

theorem nuAll_append (rf : List (String × List String)) (x : String × List String) :
    nuAll (rf ++ [x]) = nuAll rf + nuOf x.2 := by
  simp [nuAll]

theorem nuAll_collectInsert (rf : List (String × List String)) (fname : String) :
    nuAll (collectInsert rf fname) = nuAll rf := by
  by_cases hk : hasKey rf fname <;> simp [collectInsert, hk, nuAll_append, nuOf]

theorem nuAll_map_update_le (rf : List (String × List String)) (fname rest : String)
    (hnd : (rf.map Prod.fst).Nodup) :
    nuAll (rf.map (fun p => if p.1 = fname then (p.1, p.2 ++ [rest]) else p)) ≤
      nuAll rf + (rest.length + 2) := by
  induction rf with
  | nil => simp [nuAll]
  | cons p t ih =>
    simp only [List.map_cons, List.nodup_cons] at hnd
    rw [List.map_cons]
    by_cases hp : p.1 = fname
    · rw [if_pos hp, map_update_id_of_not_key t fname rest (hp ▸ hnd.1)]
      simp only [nuAll, List.map_cons, List.sum_cons, nuOf, List.map_append, List.sum_append,
        List.map_cons, List.sum_cons, List.map_nil, List.sum_nil]
      omega
    · rw [if_neg hp]
      simp only [nuAll, List.map_cons, List.sum_cons]
      have := ih hnd.2
      simp only [nuAll] at this
      omega

theorem nuAll_collectAppendRest_le (rf : List (String × List String)) (fname rest : String)
    (hnd : (rf.map Prod.fst).Nodup) :
    nuAll (collectAppendRest rf fname rest) ≤ nuAll rf + (rest.length + 2) := by
  by_cases hr : rest = ""
  · simp [collectAppendRest, hr]
  · rw [collectAppendRest, if_neg hr]
    exact nuAll_map_update_le rf fname rest hnd

theorem collectStep_nodup (M : PyModel) (st : List String × List (String × List String))
    (f : String) (hnd : (st.2.map Prod.fst).Nodup) :
    ((collectStep M st f).2.map Prod.fst).Nodup := by
  simp only [collectStep]
  by_cases hc : (hasSep f || (getRelatedModel M f).isSome : Bool)
  · rw [if_pos hc]
    rw [keys_collectAppendRest]
    exact keys_collectInsert_nodup _ _ hnd
  · rw [if_neg hc]
    exact hnd

theorem collectStep_nuAll_le (M : PyModel) (st : List String × List (String × List String))
    (f : String) (hnd : (st.2.map Prod.fst).Nodup) :
    nuAll (collectStep M st f).2 ≤ nuAll st.2 + f.length := by
  simp only [collectStep]
  by_cases hc : (hasSep f || (getRelatedModel M f).isSome : Bool)
  · rw [if_pos hc]
    dsimp only
    by_cases hr : restOf f = ""
    · simp only [collectAppendRest, hr, if_pos]
      rw [nuAll_collectInsert]
      omega
    · have htail : (splitSep f).tail ≠ [] := fun hh => hr (by rw [restOf, hh]; rfl)
      have hle : (restOf f).length + 2 ≤ f.length := rest_length_le f htail
      have h1 := nuAll_collectAppendRest_le (collectInsert st.2 (firstSeg f))
        (firstSeg f) (restOf f)
        (keys_collectInsert_nodup st.2 _ hnd)
      rw [nuAll_collectInsert] at h1
      omega
  · rw [if_neg hc]
    omega


theorem μs_cons (f : String) (l : List String) : μs (f :: l) = f.length + 1 + μs l := by
  simp [μs]

theorem nuOf_eq (l : List String) : nuOf l = μs l + l.length := by
  induction l with
  | nil => simp [nuOf, μs]
  | cons f t ih => simp [nuOf, μs] at ih ⊢; omega

theorem collect_foldl_inv (M : PyModel) :
    ∀ (l : List String) (st : List String × List (String × List String)) (b : Nat),
      (st.2.map Prod.fst).Nodup → nuAll st.2 ≤ b → (st.2 = [] ∨ 1 ≤ b) →
      ((l.foldl (collectStep M) st).2.map Prod.fst).Nodup ∧
        nuAll (l.foldl (collectStep M) st).2 ≤ b + μs l ∧
        ((l.foldl (collectStep M) st).2 = [] ∨ 1 ≤ b + μs l) := by
  intro l
  induction l with
  | nil =>
    intro st b h1 h2 h3
    simp only [List.foldl_nil, μs, List.map_nil, List.sum_nil, Nat.add_zero]
    exact ⟨h1, h2, h3⟩
  | cons f rest ih =>
    intro st b h1 h2 h3
    rw [List.foldl_cons]
    have h1' := collectStep_nodup M st f h1
    have h2' : nuAll (collectStep M st f).2 ≤ b + (f.length + 1) := by
      have := collectStep_nuAll_le M st f h1
      omega
    have h3' : (collectStep M st f).2 = [] ∨ 1 ≤ b + (f.length + 1) := Or.inr (by omega)
    have hmain := ih (collectStep M st f) (b + (f.length + 1)) h1' h2' h3'
    rw [μs_cons]
    rcases hmain with ⟨ha, hb, hc⟩
    refine ⟨ha, by omega, ?_⟩
    rcases hc with hc | hc
    · exact Or.inl hc
    · exact Or.inr (by omega)

theorem collectRelated_mem_lt (M : PyModel) (args : List String) (fname : String)
    (mfs : List String) (h : (fname, mfs) ∈ (collectRelated M args).2) :
    μs mfs < μs args := by
  have inv := collect_foldl_inv M args (args, []) 0 (by simp) (by simp [nuAll]) (Or.inl rfl)
  rcases inv with ⟨hnd, hnu, hor⟩
  have hone : 1 ≤ μs args := by
    rcases hor with hor | hor
    · rw [collectRelated] at h
      rw [hor] at h
      simp at h
    · omega
  have hmem : nuOf mfs ≤ nuAll (collectRelated M args).2 := by
    rw [collectRelated]
    have : nuOf mfs ∈ ((args.foldl (collectStep M) (args, [])).2.map (fun p => nuOf p.2)) := by
      rw [collectRelated] at h
      exact List.mem_map_of_mem (fun p => nuOf p.2) h
    exact List.single_le_sum (fun x _ => Nat.zero_le x) _ this
  rw [collectRelated] at hmem
  have hnu2 : nuOf mfs ≤ μs args := le_trans hmem (by omega)
  rcases mfs with _ | ⟨r, rs⟩
  · have hz : μs ([] : List String) = 0 := by simp [μs]
    omega
  · have := nuOf_eq (r :: rs)
    simp only [List.length_cons] at this
    omega


/-- A filter attribute generated by `create_filter_class`:
`filters.AllLookupsFilter(name=f)` or `filters.RelatedFilter(cls, name=f)`
(the related filter-set class is inlined as its three components). -/
inductive FilterAttr where
  | allLookupsFilter (name : String) : FilterAttr
  | relatedFilter (name : String) (subModelName : String)
      (subAttrs : List (String × FilterAttr)) (subFields : List String) : FilterAttr

/-- The generated `AllLookupsFilterSet` class: its `Meta.model` name, the
generated `class_attrs` merged in by the metaclass, and
`Meta.fields = fields_on_model`. -/
structure FilterSetClass where
  modelName : String
  attrs : List (String × FilterAttr)
  fieldsOnModel : List String

/-- The message of the exception raised by `validate_field`
(filters.py lines 109-113); the quotes around the field name are elided. -/
def validateErr (f : String) (M : PyModel) : String :=
  "Field " ++ f ++ " specified in create_filter_class func does not exist on " ++ M.name

/-- The `AttributeError` raised by `model_meta.get_field_info(None)` when a
path's first segment has no related model. -/
def relatedNoneErr : String :=
  "AttributeError: NoneType has no model meta"

/-- The filters.py lines 121-130 loop: skip paths containing the
separator, validate each remaining name, and assign a related filter or
an all-lookups filter to it. -/
def buildAttrs (M : PyModel) (rel : List (String × FilterSetClass)) :
    List String → List (String × FilterAttr) → List String →
    Except String (List (String × FilterAttr) × List String)
  | [], attrs, fields => .ok (attrs, fields)
  | f :: rest, attrs, fields =>
    if hasSep f then buildAttrs M rel rest attrs fields
    else if hasModelField M f then
      match assocLookup rel f with
      | some sub =>
        buildAttrs M rel rest
          (dictInsert attrs f (.relatedFilter f sub.modelName sub.attrs sub.fieldsOnModel))
          (fields ++ [f])
      | none =>
        buildAttrs M rel rest (dictInsert attrs f (.allLookupsFilter f)) (fields ++ [f])
    else .error (validateErr f M)

/-- Sequence the related-class results, propagating the first error
(the related classes are built before the attribute loop runs). -/
def seqPairs : List (String × Except String FilterSetClass) →
    Except String (List (String × FilterSetClass))
  | [] => .ok []
  | (_, .error e) :: _ => .error e
  | (k, .ok v) :: rest => (seqPairs rest).map (fun r => (k, v) :: r)

/-- `create_filter_class` (filters.py lines 70-172): collect the related
field paths, recursively build a filter-set class for each related
first segment (raising when the segment has no related model), then
build the class attributes for all collected argument names.  The
`kwargs` post-filter callables affect only the `qs` property at request
time and are not part of the generated class shape. -/
def create_filter_class (M : PyModel) (args : List String) : Except String FilterSetClass :=
  let col := collectRelated M args
  let pre : List (String × Except String FilterSetClass) :=
    col.2.attach.map (fun p =>
      (p.1.1,
        match getRelatedModel M p.1.1 with
        | none => .error relatedNoneErr
        | some relM => create_filter_class relM p.1.2))
  match seqPairs pre with
  | .error e => .error e
  | .ok rel =>
    match buildAttrs M rel col.1 [] [] with
    | .error e => .error e
    | .ok st => .ok ⟨M.name, st.1, st.2⟩
termination_by μs args
decreasing_by
  exact collectRelated_mem_lt M args p.1.1 p.1.2 p.2

end DjangoApi

namespace DjangoApi

theorem attach_map_pre (M : PyModel) (l : List (String × List String)) :
    (l.attach.map (fun p =>
      (p.1.1,
        match getRelatedModel M p.1.1 with
        | none => Except.error relatedNoneErr
        | some relM => create_filter_class relM p.1.2))) =
    l.map (fun p =>
      (p.1,
        match getRelatedModel M p.1 with
        | none => Except.error relatedNoneErr
        | some relM => create_filter_class relM p.2)) :=
  List.attach_map_coe l (fun p =>
    (p.1,
      match getRelatedModel M p.1 with
      | none => Except.error relatedNoneErr
      | some relM => create_filter_class relM p.2))

theorem create_filter_class_unfold (M : PyModel) (args : List String) :
    create_filter_class M args =
      match seqPairs ((collectRelated M args).2.map (fun p =>
        (p.1,
          match getRelatedModel M p.1 with
          | none => Except.error relatedNoneErr
          | some relM => create_filter_class relM p.2))) with
      | .error e => .error e
      | .ok rel =>
        match buildAttrs M rel (collectRelated M args).1 [] [] with
        | .error e => .error e
        | .ok st => .ok ⟨M.name, st.1, st.2⟩ := by
  conv_lhs => rw [create_filter_class]
  rw [attach_map_pre]

def modelB : PyModel := PyModel.mk "B" ["x", "id"] []
def modelA : PyModel := PyModel.mk "A" ["id"] [("r", modelB)]

example : create_filter_class modelB [] = .ok ⟨"B", [], []⟩ := by
  rw [create_filter_class_unfold]
  rfl

example : create_filter_class modelB ["x"] = .ok ⟨"B", [("x", .allLookupsFilter "x")], ["x"]⟩ := by
  rw [create_filter_class_unfold]
  rfl

example : create_filter_class modelA ["r"] =
    .ok ⟨"A", [("r", .relatedFilter "r" "B" [] [])], ["r"]⟩ := by
  rw [create_filter_class_unfold]
  have hcol : collectRelated modelA ["r"] = (["r"], [("r", [])]) := by rfl
  rw [hcol]
  simp only [List.map_cons, List.map_nil]
  have hrel : getRelatedModel modelA "r" = some modelB := by rfl
  rw [hrel]
  dsimp only
  rw [show create_filter_class modelB [] = .ok ⟨"B", [], []⟩ from by
    rw [create_filter_class_unfold]; rfl]
  rfl


theorem collectStep_args_mono (M : PyModel) (st : List String × List (String × List String))
    (f : String) : st.1 ⊆ (collectStep M st f).1 := by
  simp only [collectStep]
  by_cases hc : (hasSep f || (getRelatedModel M f).isSome : Bool)
  · rw [if_pos hc]
    dsimp only
    by_cases hmem : firstSeg f ∈ st.1
    · rw [if_pos hmem]
      exact fun x hx => hx
    · rw [if_neg hmem]
      exact List.subset_append_left _ _
  · rw [if_neg hc]
    exact fun x hx => hx

theorem collect_foldl_args_mono (M : PyModel) :
    ∀ (l : List String) (st : List String × List (String × List String)),
      st.1 ⊆ (l.foldl (collectStep M) st).1 := by
  intro l
  induction l with
  | nil => intro st; exact fun x hx => hx
  | cons f rest ih =>
    intro st
    exact fun x hx => ih (collectStep M st f) (collectStep_args_mono M st f hx)

theorem mem_collectRelated_args (M : PyModel) (args : List String) (f : String)
    (h : f ∈ args) : f ∈ (collectRelated M args).1 :=
  collect_foldl_args_mono M args (args, []) h

theorem collectStep_adds_fname (M : PyModel) (st : List String × List (String × List String))
    (f : String) (hc : (hasSep f || (getRelatedModel M f).isSome : Bool)) :
    firstSeg f ∈ (collectStep M st f).1 ∧
      firstSeg f ∈ (collectStep M st f).2.map Prod.fst := by
  simp only [collectStep, if_pos hc]
  constructor
  · dsimp only
    by_cases hmem : firstSeg f ∈ st.1
    · rw [if_pos hmem]
      exact hmem
    · rw [if_neg hmem]
      exact List.mem_append_right _ (by simp)
  · rw [keys_collectAppendRest]
    simp only [collectInsert]
    by_cases hk : hasKey st.2 (firstSeg f)
    · rw [if_pos hk]
      rcases hs : assocLookup st.2 (firstSeg f) with _ | v
      · simp [hasKey, hs] at hk
      · have := (assocLookup_none_iff st.2 (firstSeg f)).1
        by_cases hmem : firstSeg f ∈ st.2.map Prod.fst
        · exact hmem
        · rw [(assocLookup_none_iff st.2 _).2 hmem] at hs
          cases hs
    · rw [if_neg hk]
      simp

theorem collectStep_keys_mono (M : PyModel) (st : List String × List (String × List String))
    (f : String) : st.2.map Prod.fst ⊆ (collectStep M st f).2.map Prod.fst := by
  simp only [collectStep]
  by_cases hc : (hasSep f || (getRelatedModel M f).isSome : Bool)
  · rw [if_pos hc]
    intro x hx
    rw [keys_collectAppendRest]
    simp only [collectInsert]
    by_cases hk : hasKey st.2 (firstSeg f)
    · rw [if_pos hk]; exact hx
    · rw [if_neg hk]
      simp only [List.map_append]
      exact List.mem_append_left _ hx
  · rw [if_neg hc]
    exact fun x hx => hx

theorem collect_foldl_keys_mono (M : PyModel) :
    ∀ (l : List String) (st : List String × List (String × List String)),
      st.2.map Prod.fst ⊆ (l.foldl (collectStep M) st).2.map Prod.fst := by
  intro l
  induction l with
  | nil => intro st; exact fun x hx => hx
  | cons f rest ih =>
    intro st
    exact fun x hx => ih (collectStep M st f) (collectStep_keys_mono M st f hx)

theorem collect_foldl_fname_mem (M : PyModel) :
    ∀ (l : List String) (st : List String × List (String × List String)) (f : String),
      f ∈ l → (hasSep f || (getRelatedModel M f).isSome : Bool) →
      firstSeg f ∈ (l.foldl (collectStep M) st).1 ∧
        firstSeg f ∈ (l.foldl (collectStep M) st).2.map Prod.fst := by
  intro l
  induction l with
  | nil => intro st f h; simp at h
  | cons g rest ih =>
    intro st f hmem hc
    rcases List.mem_cons.1 hmem with rfl | hmem'
    · have hadd := collectStep_adds_fname M st f hc
      rw [List.foldl_cons]
      exact ⟨collect_foldl_args_mono M rest _ hadd.1,
        collect_foldl_keys_mono M rest _ hadd.2⟩
    · rw [List.foldl_cons]
      exact ih (collectStep M st g) f hmem' hc

theorem assocLookup_some_mem {V : Type} (d : List (String × V)) (k : String) (v : V)
    (h : assocLookup d k = some v) : (k, v) ∈ d := by
  induction d with
  | nil => cases h
  | cons p rest ih =>
    by_cases hp : p.1 = k
    · rw [assocLookup, if_pos hp] at h
      cases h
      have hpe : (k, p.2) = p := by rw [← hp]
      rw [hpe]
      exact List.mem_cons_self _ _
    · rw [assocLookup, if_neg hp] at h
      exact List.mem_cons_of_mem _ (ih h)

theorem collectStep_value_mono (M : PyModel) (st : List String × List (String × List String))
    (f : String) (k : String) (v : List String) (x : String)
    (hmem : (k, v) ∈ st.2) (hx : x ∈ v) :
    ∃ v', (k, v') ∈ (collectStep M st f).2 ∧ x ∈ v' := by
  simp only [collectStep]
  by_cases hc : (hasSep f || (getRelatedModel M f).isSome : Bool)
  · rw [if_pos hc]
    have hins : (k, v) ∈ collectInsert st.2 (firstSeg f) := by
      simp only [collectInsert]
      by_cases hk : hasKey st.2 (firstSeg f)
      · rw [if_pos hk]; exact hmem
      · rw [if_neg hk]; exact List.mem_append_left _ hmem
    simp only [collectAppendRest]
    by_cases hr : restOf f = ""
    · rw [if_pos hr]
      exact ⟨v, hins, hx⟩
    · rw [if_neg hr]
      by_cases hkf : k = firstSeg f
      · refine ⟨v ++ [restOf f], ?_, List.mem_append_left _ hx⟩
        have := List.mem_map_of_mem
          (fun p => if p.1 = firstSeg f then (p.1, p.2 ++ [restOf f]) else p) hins
        simpa [hkf] using this
      · refine ⟨v, ?_, hx⟩
        have := List.mem_map_of_mem
          (fun p => if p.1 = firstSeg f then (p.1, p.2 ++ [restOf f]) else p) hins
        simpa [hkf] using this
  · rw [if_neg hc]
    exact ⟨v, hmem, hx⟩

theorem collect_foldl_value_mono (M : PyModel) :
    ∀ (l : List String) (st : List String × List (String × List String))
      (k : String) (v : List String) (x : String),
      (k, v) ∈ st.2 → x ∈ v →
      ∃ v', (k, v') ∈ (l.foldl (collectStep M) st).2 ∧ x ∈ v' := by
  intro l
  induction l with
  | nil => intro st k v x hmem hx; exact ⟨v, hmem, hx⟩
  | cons f rest ih =>
    intro st k v x hmem hx
    rw [List.foldl_cons]
    rcases collectStep_value_mono M st f k v x hmem hx with ⟨v', hv', hx'⟩
    exact ih (collectStep M st f) k v' x hv' hx'

theorem collectStep_adds_rest (M : PyModel) (st : List String × List (String × List String))
    (f : String) (hc : (hasSep f || (getRelatedModel M f).isSome : Bool))
    (hr : restOf f ≠ "") :
    ∃ v, (firstSeg f, v) ∈ (collectStep M st f).2 ∧
      restOf f ∈ v := by
  simp only [collectStep, if_pos hc]
  have hins : ∃ v₀, (firstSeg f, v₀) ∈ collectInsert st.2 (firstSeg f) := by
    simp only [collectInsert]
    by_cases hk : hasKey st.2 (firstSeg f)
    · rcases hs : assocLookup st.2 (firstSeg f) with _ | v₀
      · simp [hasKey, hs] at hk
      · exact ⟨v₀, by rw [if_pos hk]; exact assocLookup_some_mem _ _ _ hs⟩
    · exact ⟨[], by rw [if_neg hk]; exact List.mem_append_right _ (by simp)⟩
  rcases hins with ⟨v₀, hv₀⟩
  refine ⟨v₀ ++ [restOf f], ?_, List.mem_append_right _ (by simp)⟩
  simp only [collectAppendRest, if_neg hr]
  have := List.mem_map_of_mem
    (fun p => if p.1 = firstSeg f then (p.1, p.2 ++ [restOf f]) else p) hv₀
  simpa using this


theorem seqPairs_ok_shape :
    ∀ (l : List (String × Except String FilterSetClass))
      (r : List (String × FilterSetClass)),
      seqPairs l = .ok r → l = r.map (fun q => (q.1, Except.ok q.2)) := by
  intro l
  induction l with
  | nil =>
    intro r h
    cases h
    rfl
  | cons p rest ih =>
    intro r h
    rcases p with ⟨k, e⟩
    rcases e with e | v
    · cases h
    · rw [seqPairs] at h
      rcases hs : seqPairs rest with e' | r'
      · rw [hs] at h
        cases h
      · rw [hs] at h
        simp only [Except.map] at h
        cases h
        rw [List.map_cons]
        rw [← ih r' hs]

theorem assocLookup_map_pair {A B : Type} (l : List (String × A)) (g : String × A → B)
    (k : String) :
    assocLookup (l.map (fun p => (p.1, g p))) k =
      (l.find? (fun p => decide (p.1 = k))).map g := by
  induction l with
  | nil => rfl
  | cons p rest ih =>
    by_cases hp : p.1 = k <;>
      simp [assocLookup, List.find?_cons, hp, ih]

theorem find?_key_of_mem_nodup {A : Type} (l : List (String × A)) (k : String) (v : A)
    (hnd : (l.map Prod.fst).Nodup) (hmem : (k, v) ∈ l) :
    l.find? (fun p => decide (p.1 = k)) = some (k, v) := by
  induction l with
  | nil => simp at hmem
  | cons p rest ih =>
    simp only [List.map_cons, List.nodup_cons] at hnd
    rcases List.mem_cons.1 hmem with rfl | hmem'
    · simp [List.find?_cons]
    · have hpk : ¬(p.1 = k) := by
        intro hh
        apply hnd.1
        rw [hh]
        exact List.mem_map_of_mem Prod.fst hmem'
      simp only [List.find?_cons, hpk, decide_eq_false]
      exact ih hnd.2 hmem'

theorem collectRelated_keys_nodup (M : PyModel) (args : List String) :
    ((collectRelated M args).2.map Prod.fst).Nodup :=
  (collect_foldl_inv M args (args, []) 0 (by simp) (by simp [nuAll]) (Or.inl rfl)).1

theorem assocLookup_map_replace {V : Type} (d : List (String × V)) (k : String) (v : V)
    (k' : String) :
    assocLookup (d.map (fun p => if p.1 = k then (p.1, v) else p)) k' =
      if k' = k then (assocLookup d k).map (fun _ => v) else assocLookup d k' := by
  induction d with
  | nil => by_cases hk : k' = k <;> simp [assocLookup, hk]
  | cons p rest ih =>
    by_cases hp : p.1 = k <;> by_cases hpk : p.1 = k' <;> by_cases hk : k' = k <;>
      simp_all [assocLookup]

theorem assocLookup_dictInsert {V : Type} (d : List (String × V)) (k : String) (v : V)
    (k' : String) :
    assocLookup (dictInsert d k v) k' = if k' = k then some v else assocLookup d k' := by
  rw [dictInsert]
  by_cases hk : hasKey d k
  · rw [if_pos hk, assocLookup_map_replace]
    by_cases hkk : k' = k
    · rcases hs : assocLookup d k with _ | w
      · simp [hasKey, hs] at hk
      · simp [hkk, hs]
    · simp [hkk]
  · rw [if_neg hk, assocLookup_append]
    have hnone : assocLookup d k = none := by
      rcases hs : assocLookup d k with _ | w
      · rfl
      · simp [hasKey, hs] at hk
    by_cases hkk : k' = k
    · rw [hkk, hnone]
      simp [assocLookup]
    · have hkk' : ¬(k = k') := fun h => hkk h.symm
      rcases hs : assocLookup d k' with _ | w
      · simp [hs, assocLookup, hkk', hkk]
      · simp [hs, hkk]


theorem hasSepAux_singleton (c : Char) : hasSepAux [c] = false := by
  rw [hasSepAux.eq_2 c [] (fun tail _ h => by cases h)]
  rfl

theorem hasSepAux_splitSepAux : ∀ l, ∀ g ∈ splitSepAux l, hasSepAux g = false := by
  intro l
  induction l using splitSepAux.induct with
  | case1 cs ih =>
    intro g hg
    rw [show splitSepAux ('_' :: '_' :: cs) = [] :: splitSepAux cs from rfl] at hg
    rcases List.mem_cons.1 hg with rfl | hg'
    · rfl
    · exact ih g hg'
  | case2 head cs hexc hsplit ih => exact absurd hsplit (splitSepAux_ne_nil cs)
  | case3 head cs hexc g gs hsplit ih =>
    intro x hx
    rw [splitSepAux.eq_2 head cs hexc, hsplit] at hx
    rcases List.mem_cons.1 hx with rfl | hx'
    · rcases hg : g with _ | ⟨c', g'⟩
      · exact hasSepAux_singleton head
      · have hcs : ∃ t, cs = c' :: t := by
          have hjoin := splitSepAux_join cs
          rw [hsplit, hg] at hjoin
          rcases gs with _ | ⟨b, bs⟩
          · exact ⟨g', by rw [← hjoin]; rfl⟩
          · rw [joinSepCharAux_cons₂] at hjoin
            exact ⟨g' ++ '_' :: '_' :: joinSepCharAux (b :: bs), by rw [← hjoin]; rfl⟩
        by_cases hpat : head = '_' ∧ c' = '_'
        · rcases hcs with ⟨t, ht⟩
          rw [hpat.2] at ht
          exact absurd (hexc t hpat.1 ht) (fun h => h)
        · have hexc2 : ∀ tail, head = '_' → (c' :: g') = '_' :: tail → False := by
            intro tail h1 h2
            exact hpat ⟨h1, by cases h2; rfl⟩
          rw [hasSepAux.eq_2 head (c' :: g') hexc2]
          have := ih g (by rw [hsplit]; exact List.mem_cons_self _ _)
          rw [hg] at this
          exact this
    · exact ih x (by rw [hsplit]; exact List.mem_cons_of_mem _ hx')
  | case4 =>
    intro g hg
    rcases List.mem_cons.1 hg with rfl | hg'
    · rfl
    · simp at hg'

theorem hasSep_firstSeg (f : String) : hasSep (firstSeg f) = false := by
  rw [firstSeg, splitSep]
  rcases hs : splitSepAux f.toList with _ | ⟨g, gs⟩
  · exact absurd hs (splitSepAux_ne_nil _)
  · rw [List.map_cons]
    show hasSep (String.mk g) = false
    rw [hasSep]
    show hasSepAux g = false
    exact hasSepAux_splitSepAux f.toList g (by rw [hs]; exact List.mem_cons_self _ _)

/-- The attribute the lines 121-130 loop assigns to a validated name:
a related filter when a related class was generated for it, an
all-lookups filter otherwise. -/
def attrOf (M : PyModel) (rel : List (String × FilterSetClass)) (f : String) : FilterAttr :=
  match assocLookup rel f with
  | some sub => .relatedFilter f sub.modelName sub.attrs sub.fieldsOnModel
  | none => .allLookupsFilter f

theorem buildAttrs_persist (M : PyModel) (rel : List (String × FilterSetClass)) :
    ∀ (l : List String) (attrs : List (String × FilterAttr)) (fields : List String)
      (A : List (String × FilterAttr)) (F : List String) (f : String),
      buildAttrs M rel l attrs fields = .ok (A, F) →
      assocLookup attrs f = some (attrOf M rel f) →
      assocLookup A f = some (attrOf M rel f) := by
  intro l
  induction l with
  | nil =>
    intro attrs fields A F f h hl
    cases h
    exact hl
  | cons g rest ih =>
    intro attrs fields A F f h hl
    rw [buildAttrs] at h
    by_cases hsep : hasSep g
    · rw [if_pos hsep] at h
      exact ih _ _ _ _ _ h hl
    · rw [if_neg hsep] at h
      by_cases hmf : hasModelField M g
      · rw [if_pos hmf] at h
        rcases hr : assocLookup rel g with _ | sub
        · rw [hr] at h
          refine ih _ _ _ _ _ h ?_
          rw [assocLookup_dictInsert]
          by_cases hfg : f = g
          · rw [if_pos hfg, hfg, attrOf, hr]
          · rw [if_neg hfg]
            exact hl
        · rw [hr] at h
          refine ih _ _ _ _ _ h ?_
          rw [assocLookup_dictInsert]
          by_cases hfg : f = g
          · rw [if_pos hfg, hfg, attrOf, hr]
          · rw [if_neg hfg]
            exact hl
      · rw [if_neg hmf] at h
        cases h

theorem buildAttrs_ok_lookup (M : PyModel) (rel : List (String × FilterSetClass)) :
    ∀ (l : List String) (attrs : List (String × FilterAttr)) (fields : List String)
      (A : List (String × FilterAttr)) (F : List String),
      buildAttrs M rel l attrs fields = .ok (A, F) →
      ∀ f ∈ l, hasSep f = false → assocLookup A f = some (attrOf M rel f) := by
  intro l
  induction l with
  | nil =>
    intro attrs fields A F h f hf
    simp at hf
  | cons g rest ih =>
    intro attrs fields A F h f hf hsepf
    rw [buildAttrs] at h
    rcases List.mem_cons.1 hf with rfl | hf'
    · rw [if_neg (by rw [hsepf]; exact Bool.false_ne_true)] at h
      by_cases hmf : hasModelField M f
      · rw [if_pos hmf] at h
        rcases hr : assocLookup rel f with _ | sub
        · rw [hr] at h
          refine buildAttrs_persist M rel _ _ _ _ _ _ h ?_
          rw [assocLookup_dictInsert, if_pos rfl, attrOf, hr]
        · rw [hr] at h
          refine buildAttrs_persist M rel _ _ _ _ _ _ h ?_
          rw [assocLookup_dictInsert, if_pos rfl, attrOf, hr]
      · rw [if_neg hmf] at h
        cases h
    · by_cases hsep : hasSep g
      · rw [if_pos hsep] at h
        exact ih _ _ _ _ h f hf' hsepf
      · rw [if_neg hsep] at h
        by_cases hmf : hasModelField M g
        · rw [if_pos hmf] at h
          rcases hr : assocLookup rel g with _ | sub
          · rw [hr] at h
            exact ih _ _ _ _ h f hf' hsepf
          · rw [hr] at h
            exact ih _ _ _ _ h f hf' hsepf
        · rw [if_neg hmf] at h
          cases h

theorem buildAttrs_error_of_bad (M : PyModel) (rel : List (String × FilterSetClass)) :
    ∀ (l : List String) (attrs : List (String × FilterAttr)) (fields : List String)
      (f : String), f ∈ l → hasSep f = false → hasModelField M f = false →
      ∃ e, buildAttrs M rel l attrs fields = .error e := by
  intro l
  induction l with
  | nil =>
    intro attrs fields f hf
    simp at hf
  | cons g rest ih =>
    intro attrs fields f hf hsepf hmff
    rw [buildAttrs]
    by_cases hsep : hasSep g
    · rw [if_pos hsep]
      have hf' : f ∈ rest := by
        rcases List.mem_cons.1 hf with rfl | hf'
        · rw [hsepf] at hsep
          cases hsep
        · exact hf'
      exact ih _ _ f hf' hsepf hmff
    · rw [if_neg hsep]
      by_cases hmf : hasModelField M g
      · rw [if_pos hmf]
        have hf' : f ∈ rest := by
          rcases List.mem_cons.1 hf with rfl | hf'
          · rw [hmff] at hmf
            cases hmf
          · exact hf'
        rcases assocLookup rel g with _ | sub
        · exact ih _ _ f hf' hsepf hmff
        · exact ih _ _ f hf' hsepf hmff
      · rw [if_neg hmf]
        exact ⟨validateErr g M, rfl⟩


/-- The related-class build results, in key order of `related_fields`. -/
def relatedResults (M : PyModel) (col2 : List (String × List String)) :
    List (String × Except String FilterSetClass) :=
  col2.map (fun p =>
    (p.1,
      match getRelatedModel M p.1 with
      | none => Except.error relatedNoneErr
      | some relM => create_filter_class relM p.2))

theorem create_filter_class_unfold₂ (M : PyModel) (args : List String) :
    create_filter_class M args =
      match seqPairs (relatedResults M (collectRelated M args).2) with
      | .error e => .error e
      | .ok rel =>
        match buildAttrs M rel (collectRelated M args).1 [] [] with
        | .error e => .error e
        | .ok st => .ok ⟨M.name, st.1, st.2⟩ :=
  create_filter_class_unfold M args

theorem create_ok_inv (M : PyModel) (args : List String) (fsc : FilterSetClass)
    (hok : create_filter_class M args = .ok fsc) :
    ∃ rel A F,
      seqPairs (relatedResults M (collectRelated M args).2) = .ok rel ∧
      buildAttrs M rel (collectRelated M args).1 [] [] = .ok (A, F) ∧
      fsc = ⟨M.name, A, F⟩ := by
  rw [create_filter_class_unfold₂] at hok
  rcases hs : seqPairs (relatedResults M (collectRelated M args).2) with e | rel
  · rw [hs] at hok
    cases hok
  · rw [hs] at hok
    dsimp only at hok
    rcases hb : buildAttrs M rel (collectRelated M args).1 [] [] with e | st
    · rw [hb] at hok
      cases hok
    · rw [hb] at hok
      dsimp only at hok
      cases hok
      exact ⟨rel, st.1, st.2, rfl, by rw [hb], rfl⟩

theorem seqPairs_keys (l : List (String × Except String FilterSetClass))
    (r : List (String × FilterSetClass)) (h : seqPairs l = .ok r) :
    l.map Prod.fst = r.map Prod.fst := by
  rw [seqPairs_ok_shape l r h]
  simp

theorem relatedResults_keys (M : PyModel) (col2 : List (String × List String)) :
    (relatedResults M col2).map Prod.fst = col2.map Prod.fst := by
  simp [relatedResults]

theorem assocLookup_eq_find?_snd {V : Type} (l : List (String × V)) (k : String) :
    assocLookup l k = (l.find? (fun p => decide (p.1 = k))).map Prod.snd := by
  induction l with
  | nil => rfl
  | cons p rest ih =>
    by_cases hp : p.1 = k <;> simp [assocLookup, List.find?_cons, hp, ih]

theorem create_ok_rel_entry (M : PyModel) (args : List String) (k : String)
    (mfs : List String) (rel : List (String × FilterSetClass))
    (hmem : (k, mfs) ∈ (collectRelated M args).2)
    (hs : seqPairs (relatedResults M (collectRelated M args).2) = .ok rel) :
    ∃ relM sub,
      getRelatedModel M k = some relM ∧
      create_filter_class relM mfs = .ok sub ∧
      assocLookup rel k = some sub := by
  have hnd := collectRelated_keys_nodup M args
  have hfind := find?_key_of_mem_nodup (collectRelated M args).2 k mfs hnd hmem
  have h1 : assocLookup (relatedResults M (collectRelated M args).2) k =
      some (match getRelatedModel M k with
            | none => Except.error relatedNoneErr
            | some relM => create_filter_class relM mfs) := by
    rw [relatedResults, assocLookup_map_pair, hfind]
    rfl
  have hshape := seqPairs_ok_shape _ _ hs
  rw [hshape] at h1
  have h2 : assocLookup (rel.map (fun q => (q.1, Except.ok (ε := String) q.2))) k =
      (rel.find? (fun p => decide (p.1 = k))).map (fun q => Except.ok q.2) := by
    rw [assocLookup_map_pair]
  rw [h2] at h1
  rcases hf : rel.find? (fun p => decide (p.1 = k)) with _ | q
  · rw [hf] at h1
    cases h1
  · rw [hf] at h1
    simp only [Option.map_some'] at h1
    rcases hrm : getRelatedModel M k with _ | relM
    · rw [hrm] at h1
      cases h1
    · rw [hrm] at h1
      have hcfc : create_filter_class relM mfs = Except.ok q.2 := (Option.some.inj h1).symm
      refine ⟨relM, q.2, rfl, hcfc, ?_⟩
      have hq1 : q.1 = k := by simpa using List.find?_some hf
      have hqmem := List.mem_of_find?_eq_some hf
      have hndr : (rel.map Prod.fst).Nodup := by
        rw [← seqPairs_keys _ _ hs, relatedResults_keys]
        exact hnd
      have hkq : (k, q.2) ∈ rel := by
        rw [← hq1]
        exact hqmem
      rw [assocLookup_eq_find?_snd, find?_key_of_mem_nodup rel k q.2 hndr hkq]
      rfl


theorem splitSepAux_no_sep : ∀ l, hasSepAux l = false → splitSepAux l = [l] := by
  intro l
  induction l using splitSepAux.induct with
  | case1 cs ih =>
    intro h
    rw [show hasSepAux ('_' :: '_' :: cs) = true from rfl] at h
    cases h
  | case2 head cs hexc hsplit ih => exact absurd hsplit (splitSepAux_ne_nil cs)
  | case3 head cs hexc g gs hsplit ih =>
    intro h
    rw [hasSepAux.eq_2 head cs hexc] at h
    have := ih h
    rw [this] at hsplit
    cases hsplit
    rw [splitSepAux.eq_2 head cs hexc, this]
  | case4 => intro h; rfl

theorem splitSep_no_sep (f : String) (h : hasSep f = false) : splitSep f = [f] := by
  rw [splitSep, splitSepAux_no_sep f.toList h]
  rfl

theorem firstSeg_no_sep (f : String) (h : hasSep f = false) : firstSeg f = f := by
  rw [firstSeg, splitSep_no_sep f h]
  rfl

theorem restOf_no_sep (f : String) (h : hasSep f = false) : restOf f = "" := by
  rw [restOf, splitSep_no_sep f h]
  rfl

theorem mem_of_mem_keys {V : Type} (l : List (String × V)) (k : String)
    (h : k ∈ l.map Prod.fst) : ∃ v, (k, v) ∈ l := by
  rcases List.mem_map.1 h with ⟨p, hp, hk⟩
  exact ⟨p.2, by rw [← hk]; exact hp⟩

theorem collect_foldl_rest_mem (M : PyModel) :
    ∀ (l : List String) (st : List String × List (String × List String)) (f : String),
      f ∈ l → (hasSep f || (getRelatedModel M f).isSome : Bool) → restOf f ≠ "" →
      ∃ v, (firstSeg f, v) ∈ (l.foldl (collectStep M) st).2 ∧ restOf f ∈ v := by
  intro l
  induction l with
  | nil => intro st f h; simp at h
  | cons g rest ih =>
    intro st f hmem hc hr
    rcases List.mem_cons.1 hmem with rfl | hmem'
    · rcases collectStep_adds_rest M st f hc hr with ⟨v, hv, hx⟩
      rw [List.foldl_cons]
      exact collect_foldl_value_mono M rest (collectStep M st f) (firstSeg f) v (restOf f) hv hx
    · rw [List.foldl_cons]
      exact ih (collectStep M st g) f hmem' hc hr


/-- C3 (amended): in a successfully generated filter-set class, every
named field (argument without the separator) that does not resolve to a
related model is given an all-lookups filter; a named field resolving to
a related model is given a related filter wrapping the recursively
generated class instead. -/
theorem create_filter_class_named_field (M : PyModel) (args : List String) (f : String)
    (fsc : FilterSetClass) (hmem : f ∈ args) (hsep : hasSep f = false)
    (hok : create_filter_class M args = .ok fsc) :
    (getRelatedModel M f = none → assocLookup fsc.attrs f = some (.allLookupsFilter f)) ∧
    (∀ relM, getRelatedModel M f = some relM →
      ∃ mfs sub, (f, mfs) ∈ (collectRelated M args).2 ∧
        create_filter_class relM mfs = .ok sub ∧
        assocLookup fsc.attrs f =
          some (.relatedFilter f sub.modelName sub.attrs sub.fieldsOnModel)) := by
  rcases create_ok_inv M args fsc hok with ⟨rel, A, F, hs, hb, rfl⟩
  dsimp only
  have hfcol : f ∈ (collectRelated M args).1 := mem_collectRelated_args M args f hmem
  have hlookup := buildAttrs_ok_lookup M rel _ _ _ _ _ hb f hfcol hsep
  constructor
  · intro hnone
    have hrelnone : assocLookup rel f = none := by
      rcases hr : assocLookup rel f with _ | sub
      · rfl
      · exfalso
        have hfkeys : f ∈ rel.map Prod.fst :=
          List.mem_map_of_mem Prod.fst (assocLookup_some_mem _ _ _ hr)
        rw [← seqPairs_keys _ _ hs, relatedResults_keys] at hfkeys
        rcases mem_of_mem_keys _ _ hfkeys with ⟨mfs, hmfs⟩
        rcases create_ok_rel_entry M args f mfs rel hmfs hs with ⟨relM, sub', hrm, _, _⟩
        rw [hnone] at hrm
        cases hrm
    rw [hlookup, attrOf, hrelnone]
  · intro relM hsome
    have hc : (hasSep f || (getRelatedModel M f).isSome : Bool) := by
      rw [hsome]
      simp
    have hin := collect_foldl_fname_mem M args (args, []) f hmem hc
    rw [firstSeg_no_sep f hsep] at hin
    rcases mem_of_mem_keys _ _ hin.2 with ⟨mfs, hmfs⟩
    rcases create_ok_rel_entry M args f mfs rel hmfs hs with ⟨relM', sub, hrm, hcfc, hrl⟩
    rw [hsome] at hrm
    cases hrm
    refine ⟨mfs, sub, hmfs, hcfc, ?_⟩
    rw [hlookup, attrOf, hrl]

/-- C4: every argument containing the separator contributes a related
filter: its first segment resolves to a related model, the joined
remainder (when non-empty) is among the field paths recursively passed
to `create_filter_class` for that model, and the generated class binds
the first segment to a related filter wrapping the recursively
generated class. -/
theorem create_filter_class_related_path (M : PyModel) (args : List String) (f : String)
    (fsc : FilterSetClass) (hmem : f ∈ args) (hsep : hasSep f = true)
    (hok : create_filter_class M args = .ok fsc) :
    ∃ relM mfs sub,
      getRelatedModel M (firstSeg f) = some relM ∧
      (firstSeg f, mfs) ∈ (collectRelated M args).2 ∧
      (restOf f ≠ "" → restOf f ∈ mfs) ∧
      create_filter_class relM mfs = .ok sub ∧
      assocLookup fsc.attrs (firstSeg f) =
        some (.relatedFilter (firstSeg f) sub.modelName sub.attrs sub.fieldsOnModel) := by
  rcases create_ok_inv M args fsc hok with ⟨rel, A, F, hs, hb, rfl⟩
  dsimp only
  have hc : (hasSep f || (getRelatedModel M f).isSome : Bool) := by
    rw [hsep]
    rfl
  have hentry : ∃ mfs, (firstSeg f, mfs) ∈ (collectRelated M args).2 ∧
      (restOf f ≠ "" → restOf f ∈ mfs) := by
    by_cases hr : restOf f = ""
    · have hin := collect_foldl_fname_mem M args (args, []) f hmem hc
      rcases mem_of_mem_keys _ _ hin.2 with ⟨mfs, hmfs⟩
      exact ⟨mfs, hmfs, fun hcon => absurd hr hcon⟩
    · rcases collect_foldl_rest_mem M args (args, []) f hmem hc hr with ⟨v, hv, hx⟩
      exact ⟨v, hv, fun _ => hx⟩
  rcases hentry with ⟨mfs, hmfs, hrest⟩
  rcases create_ok_rel_entry M args (firstSeg f) mfs rel hmfs hs with ⟨relM, sub, hrm, hcfc, hrl⟩
  have hfname_args : firstSeg f ∈ (collectRelated M args).1 :=
    (collect_foldl_fname_mem M args (args, []) f hmem hc).1
  have hlookup := buildAttrs_ok_lookup M rel _ _ _ _ _ hb (firstSeg f) hfname_args
    (hasSep_firstSeg f)
  refine ⟨relM, mfs, sub, hrm, hmfs, hrest, hcfc, ?_⟩
  rw [hlookup, attrOf, hrl]

/-- C5: a top-level argument (no separator) that is neither a concrete
field, the pk, nor a relation of the model makes `create_filter_class`
raise instead of returning a class; when it is the only argument the
exception message names the missing field and the model. -/
theorem create_filter_class_unknown_field (M : PyModel) (args : List String) (f : String)
    (hmem : f ∈ args) (hsep : hasSep f = false) (hmf : hasModelField M f = false) :
    (∃ e, create_filter_class M args = .error e) ∧
    create_filter_class M [f] = .error (validateErr f M) := by
  constructor
  · rw [create_filter_class_unfold₂]
    rcases hs : seqPairs (relatedResults M (collectRelated M args).2) with e | rel
    · exact ⟨e, rfl⟩
    · have hf := mem_collectRelated_args M args f hmem
      rcases buildAttrs_error_of_bad M rel (collectRelated M args).1 [] [] f hf hsep hmf
        with ⟨e, he⟩
      dsimp only
      rw [he]
      exact ⟨e, rfl⟩
  · have hcond : (hasSep f || (getRelatedModel M f).isSome : Bool) = false := by
      rw [hsep]
      simp only [Bool.false_or]
      rcases hr : getRelatedModel M f with _ | relM
      · rfl
      · rw [hasModelField, hr] at hmf
        simp at hmf
    have hcol : collectRelated M [f] = ([f], []) := by
      rw [collectRelated, List.foldl_cons, List.foldl_nil, collectStep,
        if_neg (by rw [hcond]; exact Bool.false_ne_true)]
    rw [create_filter_class_unfold₂, hcol]
    rw [show relatedResults M ([] : List (String × List String)) = [] from rfl]
    rw [show seqPairs [] = Except.ok [] from rfl]
    dsimp only
    rw [buildAttrs, if_neg (by rw [hsep]; exact Bool.false_ne_true),
      if_neg (by rw [hmf]; exact Bool.false_ne_true)]


/-- A concrete related model with two plain fields, for evaluation. -/
def mB : PyModel := .mk "B" ["x", "id"] []

/-- A concrete model with a relation `r` to `mB`, for evaluation. -/
def mA : PyModel := .mk "A" ["id"] [("r", mB)]

theorem cfc_mB_nil : create_filter_class mB [] = .ok ⟨"B", [], []⟩ := by
  rw [create_filter_class_unfold₂]
  rfl

theorem cfc_mB_x : create_filter_class mB ["x"] =
    .ok ⟨"B", [("x", .allLookupsFilter "x")], ["x"]⟩ := by
  rw [create_filter_class_unfold₂]
  rfl

theorem cfc_mA_r : create_filter_class mA ["r"] =
    .ok ⟨"A", [("r", .relatedFilter "r" "B" [] [])], ["r"]⟩ := by
  rw [create_filter_class_unfold₂]
  rw [show collectRelated mA ["r"] = (["r"], [("r", [])]) from rfl]
  rw [show relatedResults mA [("r", [])] =
    [("r", create_filter_class mB [])] from rfl]
  rw [cfc_mB_nil]
  rfl

theorem cfc_mA_rx : create_filter_class mA ["r__x"] =
    .ok ⟨"A", [("r", .relatedFilter "r" "B" [("x", .allLookupsFilter "x")] ["x"])], ["r"]⟩ := by
  rw [create_filter_class_unfold₂]
  rw [show collectRelated mA ["r__x"] = (["r__x", "r"], [("r", ["x"])]) from rfl]
  rw [show relatedResults mA [("r", ["x"])] =
    [("r", create_filter_class mB ["x"])] from rfl]
  rw [cfc_mB_x]
  rfl

/-- C3 counterexample: for the valid field list `["r"]` on a model where
`r` is a relation, the generated class gives the named field `r` a
related filter, not an all-lookups filter, refuting the claim that each
named field is given an all-lookups filter. -/
theorem create_filter_class_named_field_counterexample :
    create_filter_class mA ["r"] =
      .ok ⟨"A", [("r", .relatedFilter "r" "B" [] [])], ["r"]⟩ ∧
    assocLookup (FilterSetClass.mk "A" [("r", .relatedFilter "r" "B" [] [])] ["r"]).attrs "r" ≠
      some (.allLookupsFilter "r") := by
  refine ⟨cfc_mA_r, ?_⟩
  intro h
  rw [show assocLookup (FilterSetClass.mk "A"
    [("r", FilterAttr.relatedFilter "r" "B" [] [])] ["r"]).attrs "r" =
    some (FilterAttr.relatedFilter "r" "B" [] []) from rfl] at h
  cases h

/-- C3 witness: for the plain field `x` of `mB` the amended theorem
yields an all-lookups filter at a concrete input. -/
theorem create_filter_class_named_field_witness :
    "x" ∈ ["x"] ∧ hasSep "x" = false ∧
    create_filter_class mB ["x"] = .ok ⟨"B", [("x", .allLookupsFilter "x")], ["x"]⟩ ∧
    (getRelatedModel mB "x" = none →
      assocLookup (FilterSetClass.mk "B" [("x", FilterAttr.allLookupsFilter "x")] ["x"]).attrs
        "x" = some (.allLookupsFilter "x")) :=
  ⟨by decide, by decide, cfc_mB_x,
    (create_filter_class_named_field mB ["x"] "x" _ (by decide) (by decide) cfc_mB_x).1⟩

/-- C4 witness: the path `r__x` on `mA` resolves `r` to `mB`, passes
`x` on recursively and binds `r` to the related filter, at a concrete
input. -/
theorem create_filter_class_related_path_witness :
    "r__x" ∈ ["r__x"] ∧ hasSep "r__x" = true ∧
    create_filter_class mA ["r__x"] =
      .ok ⟨"A", [("r", .relatedFilter "r" "B" [("x", .allLookupsFilter "x")] ["x"])], ["r"]⟩ ∧
    (∃ relM mfs sub,
      getRelatedModel mA (firstSeg "r__x") = some relM ∧
      (firstSeg "r__x", mfs) ∈ (collectRelated mA ["r__x"]).2 ∧
      (restOf "r__x" ≠ "" → restOf "r__x" ∈ mfs) ∧
      create_filter_class relM mfs = .ok sub ∧
      assocLookup (FilterSetClass.mk "A"
          [("r", FilterAttr.relatedFilter "r" "B" [("x", FilterAttr.allLookupsFilter "x")] ["x"])]
          ["r"]).attrs (firstSeg "r__x") =
        some (.relatedFilter (firstSeg "r__x") sub.modelName sub.attrs sub.fieldsOnModel)) :=
  ⟨by decide, by decide, cfc_mA_rx,
    create_filter_class_related_path mA ["r__x"] "r__x" _ (by decide) (by decide) cfc_mA_rx⟩

/-- C5 witness: the unknown field `bad` on `mB` raises, and alone it
raises the exception naming the field and the model. -/
theorem create_filter_class_unknown_field_witness :
    "bad" ∈ ["bad"] ∧ hasSep "bad" = false ∧ hasModelField mB "bad" = false ∧
    ((∃ e, create_filter_class mB ["bad"] = .error e) ∧
      create_filter_class mB ["bad"] = .error (validateErr "bad" mB)) :=
  ⟨by decide, by decide, by decide,
    create_filter_class_unknown_field mB ["bad"] "bad" (by decide) (by decide) (by decide)⟩

/-! ## Claim C6: `DjangoFilterBackend.filter_queryset` -/

/-- A queryset, reduced to the multiset of rows the database returns. -/
structure QuerySet (Row : Type) where
  rows : List Row

/-- Django `.distinct()`: remove duplicate rows. -/
def QuerySet.distinct {Row : Type} [DecidableEq Row] (q : QuerySet Row) : QuerySet Row :=
  ⟨q.rows.dedup⟩

/-- `DjangoFilterBackend.filter_queryset` (filters.py lines 39-45):
delegate to the base backend, then apply `.distinct()` as the final
step.  The base backend is the framework's filtering, a parameter. -/
def filter_queryset {Req View Row : Type} [DecidableEq Row]
    (baseFilter : Req → QuerySet Row → View → QuerySet Row)
    (request : Req) (queryset : QuerySet Row) (view : View) : QuerySet Row :=
  (baseFilter request queryset view).distinct

/-- C6: whatever the base backend returns, the queryset produced by the
overridden `filter_queryset` contains no duplicate rows, since
`.distinct()` is applied as the final operation. -/
theorem filter_queryset_no_duplicates {Req View Row : Type} [DecidableEq Row]
    (baseFilter : Req → QuerySet Row → View → QuerySet Row)
    (request : Req) (queryset : QuerySet Row) (view : View) :
    (filter_queryset baseFilter request queryset view).rows.Nodup :=
  List.nodup_dedup _


/-! ## Claim C8: the pandas CSV renderer text patch (`renderers.py`) -/

/-- Python `out.replace('None,,', ',,')` (renderers.py line 21):
left-to-right, non-overlapping, replaced text not rescanned. -/
def replaceNone2 : List Char → List Char
  | 'N' :: 'o' :: 'n' :: 'e' :: ',' :: ',' :: cs => ',' :: ',' :: replaceNone2 cs
  | c :: cs => c :: replaceNone2 cs
  | [] => []

/-- Python `out.replace('None,', ',')` (renderers.py line 22). -/
def replaceNone1 : List Char → List Char
  | 'N' :: 'o' :: 'n' :: 'e' :: ',' :: cs => ',' :: replaceNone1 cs
  | c :: cs => c :: replaceNone1 cs
  | [] => []

/-- `PandasCSVRenderer.render` (renderers.py lines 13-23): the output of
the base CSV renderer is the parameter `s`; the two quick-fix
replacements are applied to it in order. -/
def render (s : String) : String :=
  String.mk (replaceNone1 (replaceNone2 s.toList))


/-- Python `pat in s` for a non-empty pattern. -/
def hasSubstr (pat : List Char) : List Char → Bool
  | [] => pat.isEmpty
  | l@(_ :: cs) => pat.isPrefixOf l || hasSubstr pat cs

/-- The characters of `'None,'`. -/
def noneCommaPat : List Char := ['N', 'o', 'n', 'e', ',']
/-- The characters of `'NoneNone'`, the only context in which a
replacement can create a fresh occurrence of `'None,'`. -/
def noneNonePat : List Char := ['N', 'o', 'n', 'e', 'N', 'o', 'n', 'e']

/-- Whether `'None,'` occurs immediately after some newline. -/
def afterNewline : List Char → Bool
  | '\n' :: cs => noneCommaPat.isPrefixOf cs || afterNewline cs
  | _ :: cs => afterNewline cs
  | [] => false

/-- Whether `'None,'` occurs at the start of a line: at position zero or
right after a newline. -/
def hasNoneAtLineStart (l : List Char) : Bool :=
  noneCommaPat.isPrefixOf l || afterNewline l

theorem isPrefixOf_cons_inv {a : Char} {as l : List Char}
    (h : (a :: as).isPrefixOf l = true) : ∃ t, l = a :: t ∧ as.isPrefixOf t = true := by
  rcases l with _ | ⟨b, t⟩
  · simp [List.isPrefixOf] at h
  · rw [List.isPrefixOf] at h
    rw [Bool.and_eq_true] at h
    exact ⟨t, by rw [beq_iff_eq.1 h.1], h.2⟩

theorem hasSubstr_cons (pat : List Char) (c : Char) (cs : List Char)
    (h : hasSubstr pat cs = true) : hasSubstr pat (c :: cs) = true := by
  rw [hasSubstr]
  rw [h]
  simp

theorem replaceNone1_head_ne (c : Char) (hc : ¬(c = ',')) :
    ∀ (cs R : List Char), replaceNone1 cs = c :: R →
      ∃ cs', cs = c :: cs' ∧ R = replaceNone1 cs' := by
  intro cs
  induction cs using replaceNone1.induct with
  | case1 t ih =>
    intro R h
    rw [show replaceNone1 ('N' :: 'o' :: 'n' :: 'e' :: ',' :: t) = ',' :: replaceNone1 t
      from rfl] at h
    cases h
    exact absurd rfl hc
  | case2 b t hexc ih =>
    intro R h
    rw [replaceNone1.eq_2 b t hexc] at h
    cases h
    exact ⟨t, rfl, rfl⟩
  | case3 =>
    intro R h
    cases h

theorem replaceNone1_head_comma :
    ∀ (cs R : List Char), replaceNone1 cs = ',' :: R →
      (∃ cs', cs = ',' :: cs' ∧ R = replaceNone1 cs') ∨
        noneCommaPat.isPrefixOf cs = true := by
  intro cs
  induction cs using replaceNone1.induct with
  | case1 t ih =>
    intro R h
    right
    simp [noneCommaPat, List.isPrefixOf]
  | case2 b t hexc ih =>
    intro R h
    rw [replaceNone1.eq_2 b t hexc] at h
    cases h
    exact Or.inl ⟨t, rfl, rfl⟩
  | case3 =>
    intro R h
    cases h

theorem replaceNone2_head_ne (c : Char) (hc : ¬(c = ',')) :
    ∀ (cs R : List Char), replaceNone2 cs = c :: R →
      ∃ cs', cs = c :: cs' ∧ R = replaceNone2 cs' := by
  intro cs
  induction cs using replaceNone2.induct with
  | case1 t ih =>
    intro R h
    rw [show replaceNone2 ('N' :: 'o' :: 'n' :: 'e' :: ',' :: ',' :: t) =
      ',' :: ',' :: replaceNone2 t from rfl] at h
    cases h
    exact absurd rfl hc
  | case2 b t hexc ih =>
    intro R h
    rw [replaceNone2.eq_2 b t hexc] at h
    cases h
    exact ⟨t, rfl, rfl⟩
  | case3 =>
    intro R h
    cases h

theorem replaceNone1_substr :
    ∀ l, hasSubstr noneCommaPat (replaceNone1 l) = true →
      hasSubstr noneNonePat l = true := by
  intro l
  induction l using replaceNone1.induct with
  | case1 t ih =>
    intro h
    rw [show replaceNone1 ('N' :: 'o' :: 'n' :: 'e' :: ',' :: t) = ',' :: replaceNone1 t
      from rfl] at h
    rw [hasSubstr] at h
    rw [show noneCommaPat.isPrefixOf (',' :: replaceNone1 t) = false by
      simp [noneCommaPat, List.isPrefixOf]] at h
    simp only [Bool.false_or] at h
    have := ih h
    exact hasSubstr_cons _ _ _ (hasSubstr_cons _ _ _ (hasSubstr_cons _ _ _
      (hasSubstr_cons _ _ _ (hasSubstr_cons _ _ _ this))))
  | case2 c t hexc ih =>
    intro h
    rw [replaceNone1.eq_2 c t hexc] at h
    rw [hasSubstr] at h
    rw [Bool.or_eq_true] at h
    rcases h with hpre | hsub
    · -- the pattern begins at the junction: trace it back through the output
      rcases isPrefixOf_cons_inv hpre with ⟨t1, hc1, hp1⟩
      injection hc1 with hcN ht1
      subst hcN
      rw [← ht1] at hp1
      rcases isPrefixOf_cons_inv hp1 with ⟨t2, he2, hp2⟩
      rcases replaceNone1_head_ne 'o' (by decide) t t2 he2 with ⟨u1, hu1, ht2⟩
      rw [ht2] at hp2
      rcases isPrefixOf_cons_inv hp2 with ⟨t3, he3, hp3⟩
      rcases replaceNone1_head_ne 'n' (by decide) u1 t3 he3 with ⟨u2, hu2, ht3⟩
      rw [ht3] at hp3
      rcases isPrefixOf_cons_inv hp3 with ⟨t4, he4, hp4⟩
      rcases replaceNone1_head_ne 'e' (by decide) u2 t4 he4 with ⟨u3, hu3, ht4⟩
      rw [ht4] at hp4
      rcases isPrefixOf_cons_inv hp4 with ⟨t5, he5, _⟩
      rcases replaceNone1_head_comma u3 t5 he5 with ⟨u4, hu4, _⟩ | hpat
      · exfalso
        apply hexc u4 rfl
        rw [hu1, hu2, hu3, hu4]
      · -- the original contains NoneNone starting at the head
        rcases isPrefixOf_cons_inv hpat with ⟨v1, hv1, hq1⟩
        rcases isPrefixOf_cons_inv hq1 with ⟨v2, hv2, hq2⟩
        rcases isPrefixOf_cons_inv hq2 with ⟨v3, hv3, hq3⟩
        rcases isPrefixOf_cons_inv hq3 with ⟨v4, hv4, _⟩
        rw [hasSubstr]
        rw [show t = 'o' :: 'n' :: 'e' :: 'N' :: 'o' :: 'n' :: 'e' :: v4 by
          rw [hu1, hu2, hu3, hv1, hv2, hv3, hv4]]
        rw [show noneNonePat.isPrefixOf
          ('N' :: 'o' :: 'n' :: 'e' :: 'N' :: 'o' :: 'n' :: 'e' :: v4) = true by
          simp [noneNonePat, List.isPrefixOf]]
        simp
    · exact hasSubstr_cons _ _ _ (ih hsub)
  | case3 =>
    intro h
    rw [show replaceNone1 [] = [] from rfl] at h
    cases h

theorem replaceNone2_substr :
    ∀ l, hasSubstr noneNonePat (replaceNone2 l) = true →
      hasSubstr noneNonePat l = true := by
  intro l
  induction l using replaceNone2.induct with
  | case1 t ih =>
    intro h
    rw [show replaceNone2 ('N' :: 'o' :: 'n' :: 'e' :: ',' :: ',' :: t) =
      ',' :: ',' :: replaceNone2 t from rfl] at h
    rw [hasSubstr] at h
    rw [show noneNonePat.isPrefixOf (',' :: ',' :: replaceNone2 t) = false by
      simp [noneNonePat, List.isPrefixOf]] at h
    simp only [Bool.false_or] at h
    rw [hasSubstr] at h
    rw [show noneNonePat.isPrefixOf (',' :: replaceNone2 t) = false by
      simp [noneNonePat, List.isPrefixOf]] at h
    simp only [Bool.false_or] at h
    have := ih h
    exact hasSubstr_cons _ _ _ (hasSubstr_cons _ _ _ (hasSubstr_cons _ _ _
      (hasSubstr_cons _ _ _ (hasSubstr_cons _ _ _ (hasSubstr_cons _ _ _ this)))))
  | case2 c t hexc ih =>
    intro h
    rw [replaceNone2.eq_2 c t hexc] at h
    rw [hasSubstr] at h
    rw [Bool.or_eq_true] at h
    rcases h with hpre | hsub
    · rcases isPrefixOf_cons_inv hpre with ⟨t1, hc1, hp1⟩
      injection hc1 with hcN ht1
      subst hcN
      rw [← ht1] at hp1
      rcases isPrefixOf_cons_inv hp1 with ⟨t2, he2, hp2⟩
      rcases replaceNone2_head_ne 'o' (by decide) t t2 he2 with ⟨u1, hu1, ht2⟩
      rw [ht2] at hp2
      rcases isPrefixOf_cons_inv hp2 with ⟨t3, he3, hp3⟩
      rcases replaceNone2_head_ne 'n' (by decide) u1 t3 he3 with ⟨u2, hu2, ht3⟩
      rw [ht3] at hp3
      rcases isPrefixOf_cons_inv hp3 with ⟨t4, he4, hp4⟩
      rcases replaceNone2_head_ne 'e' (by decide) u2 t4 he4 with ⟨u3, hu3, ht4⟩
      rw [ht4] at hp4
      rcases isPrefixOf_cons_inv hp4 with ⟨t5, he5, hp5⟩
      rcases replaceNone2_head_ne 'N' (by decide) u3 t5 he5 with ⟨u4, hu4, ht5⟩
      rw [ht5] at hp5
      rcases isPrefixOf_cons_inv hp5 with ⟨t6, he6, hp6⟩
      rcases replaceNone2_head_ne 'o' (by decide) u4 t6 he6 with ⟨u5, hu5, ht6⟩
      rw [ht6] at hp6
      rcases isPrefixOf_cons_inv hp6 with ⟨t7, he7, hp7⟩
      rcases replaceNone2_head_ne 'n' (by decide) u5 t7 he7 with ⟨u6, hu6, ht7⟩
      rw [ht7] at hp7
      rcases isPrefixOf_cons_inv hp7 with ⟨t8, he8, _⟩
      rcases replaceNone2_head_ne 'e' (by decide) u6 t8 he8 with ⟨u7, hu7, _⟩
      rw [hasSubstr]
      rw [show t = 'o' :: 'n' :: 'e' :: 'N' :: 'o' :: 'n' :: 'e' :: u7 by
        rw [hu1, hu2, hu3, hu4, hu5, hu6, hu7]]
      rw [show noneNonePat.isPrefixOf
        ('N' :: 'o' :: 'n' :: 'e' :: 'N' :: 'o' :: 'n' :: 'e' :: u7) = true by
        simp [noneNonePat, List.isPrefixOf]]
      simp
    · exact hasSubstr_cons _ _ _ (ih hsub)
  | case3 =>
    intro h
    rw [show replaceNone2 [] = [] from rfl] at h
    cases h

theorem hasSubstr_of_isPrefixOf (l : List Char)
    (h : noneCommaPat.isPrefixOf l = true) : hasSubstr noneCommaPat l = true := by
  rcases l with _ | ⟨c, cs⟩
  · simp [noneCommaPat, List.isPrefixOf] at h
  · rw [hasSubstr, h]
    simp

theorem hasSubstr_of_afterNewline :
    ∀ l, afterNewline l = true → hasSubstr noneCommaPat l = true := by
  intro l
  induction l using afterNewline.induct with
  | case1 cs ih =>
    intro h
    rw [show afterNewline ('\n' :: cs) = (noneCommaPat.isPrefixOf cs || afterNewline cs)
      from rfl] at h
    rw [Bool.or_eq_true] at h
    rcases h with hpre | haft
    · exact hasSubstr_cons _ _ _ (hasSubstr_of_isPrefixOf cs hpre)
    · exact hasSubstr_cons _ _ _ (ih haft)
  | case2 c cs hexc ih =>
    intro h
    rw [afterNewline.eq_2 c cs hexc] at h
    exact hasSubstr_cons _ _ _ (ih h)
  | case3 =>
    intro h
    cases h

theorem hasNoneAtLineStart_substr (l : List Char)
    (h : hasNoneAtLineStart l = true) : hasSubstr noneCommaPat l = true := by
  rw [hasNoneAtLineStart, Bool.or_eq_true] at h
  rcases h with hpre | haft
  · exact hasSubstr_of_isPrefixOf l hpre
  · exact hasSubstr_of_afterNewline l haft

/-- C8 (amended): for every base-renderer output that does not contain
the substring `NoneNone`, the rendered string contains no `None,` at
the start of a line: both replacements remove every occurrence they
scan, and a fresh occurrence can only be assembled when a removed
occurrence was immediately preceded by the text `None`. -/
theorem render_no_leading_none (s : String)
    (h : hasSubstr noneNonePat s.toList = false) :
    hasNoneAtLineStart (render s).toList = false := by
  by_contra hcon
  rw [Bool.not_eq_false] at hcon
  have h1 : hasSubstr noneCommaPat (replaceNone1 (replaceNone2 s.toList)) = true := by
    have heq : (render s).toList = replaceNone1 (replaceNone2 s.toList) := rfl
    rw [heq] at hcon
    exact hasNoneAtLineStart_substr _ hcon
  have h2 := replaceNone1_substr _ h1
  have h3 := replaceNone2_substr _ h2
  rw [h3] at h
  cases h

/-- C8 counterexample: on the base output `NoneNone,` the first
replacement finds nothing and the second replaces the second `None,`,
assembling a fresh `None,` at the start of the string, which the
non-rescanning `str.replace` does not remove. -/
theorem render_counterexample :
    render "NoneNone," = "None," ∧
    hasNoneAtLineStart (render "NoneNone,").toList = true :=
  ⟨rfl, by decide⟩

/-- C8 witness: a typical two-row output with spurious leading markers
is cleaned completely. -/
theorem render_no_leading_none_witness :
    hasSubstr noneNonePat "None,a\nNone,b".toList = false ∧
    hasNoneAtLineStart (render "None,a\nNone,b").toList = false :=
  ⟨by decide, render_no_leading_none "None,a\nNone,b" (by decide)⟩

end DjangoApi
